import Mathlib

/-!
# pnginfo.cpp: the PNG chunk-stream reader

A shallow embedding of `src/l09/pnginfo.cpp`.  The file content is a list of
bytes; `std::ifstream` is a record of the bytes not yet extracted together with
its `eofbit` and `failbit`; a thrown `std::runtime_error` and an access outside
an object (undefined behaviour in C++) are explicit results.

Platform choices, fixed where the source leaves them to the build:
* the 64-bit build of the header comment (`size_t` and `std::streamsize` have
  64 bits, so a `uint32_t` chunk length converts to either without change);
* host byte order is a parameter `le` (`true` on a little-endian host);
* `new char[n]` succeeds, and the file has no I/O error (`badbit` never set).
-/

namespace Pnginfo

/-- One octet of the file or of memory. -/
abbrev Byte := Fin 256

/-- The `std::runtime_error`s of pnginfo.cpp, one constructor per message. -/
inductive PngError
  /-- Message "Can't open file" (line 52). -/
  | cantOpenFile
  /-- Message "Can't read PNG header" (line 58). -/
  | cantReadPngHeader
  /-- Message "PNG header does not match" (line 61). -/
  | pngHeaderMismatch
  /-- Message "Can't skip chunk" (line 75). -/
  | cantSkipChunk
  /-- Message "Can't read chunk checksum" (line 79). -/
  | cantReadChecksum
  /-- Message "Bad IHDR chunk size" (line 93). -/
  | badIhdrSize
  /-- Message "Can't read IHDR" (line 95). -/
  | cantReadIhdr
  /-- Message "Can't read tEXt chunk" (line 106). -/
  | cantReadText
  deriving DecidableEq, Repr

/-- Accesses outside an object that `parseTEXT` can perform. -/
inductive Violation
  /-- Call `strlen(data)` where the `chunkHdr.length` bytes of `data` hold no NUL:
  the scan leaves the array. -/
  | strlenPastBuffer
  /-- Call `memcpy(tc.keyword, data, chunkHdr.length)` with more than 80 bytes:
  the copy leaves `char keyword[80]`. -/
  | keywordOverflow
  deriving DecidableEq, Repr

/-- How a piece of the program ends: normally with a value, by a thrown
`std::runtime_error`, in undefined behaviour, or (model only) out of fuel. -/
inductive Outcome (α : Type)
  | done (a : α)
  | threw (e : PngError)
  | undefined (v : Violation)
  | outOfFuel
  deriving DecidableEq, Repr

/-- Fields of `struct IhdrChunk`, `width` and `height` as values of `uint32_t`. -/
structure IhdrChunk where
  width : Nat
  height : Nat
  bitDepth : Byte
  colorType : Byte
  compression : Byte
  filter : Byte
  interlace : Byte
  deriving DecidableEq, Repr

/-- Fields of `struct TextChunk`.  `keyword` holds the bytes that `memcpy` wrote
to the front of `char keyword[80]` (what follows them in the array is
indeterminate); `text` is the string `strndup` allocated, without its
terminator. -/
structure TextChunk where
  keyword : List Byte
  text : List Byte
  deriving DecidableEq, Repr

/-- Data members of `class PngInfo`; `hdr = none` while the member is still
uninitialised. -/
structure PngInfo where
  textChunks : List TextChunk
  hdr : Option IhdrChunk
  deriving DecidableEq, Repr

/-- The state of the `std::ifstream`: the bytes not yet extracted and two of its
state flags. -/
structure IStream where
  rest : List Byte
  eofbit : Bool
  failbit : Bool
  deriving DecidableEq, Repr

/-- A freshly opened file. -/
def IStream.open (content : List Byte) : IStream :=
  { rest := content, eofbit := false, failbit := false }

/-- Member `good()`: no state flag is set. -/
def IStream.good (s : IStream) : Bool := !s.eofbit && !s.failbit

/-- Member `fail()`, which is what `!file` tests: `failbit` is set. -/
def IStream.fail (s : IStream) : Bool := s.failbit

/-- Member `read(buf, n)`.  The sentry sets `failbit` when the stream is not
good; otherwise `n` bytes are extracted, or, when fewer remain, all of them and
`eofbit | failbit` is set.  The first component is what was stored in `buf`. -/
def IStream.read (s : IStream) (n : Nat) : List Byte × IStream :=
  if s.good then
    if n ≤ s.rest.length then (s.rest.take n, { s with rest := s.rest.drop n })
    else (s.rest, { rest := [], eofbit := true, failbit := true })
  else ([], { s with failbit := true })

/-- Member `ignore(n)` as the C++ standard describes it.  The sentry sets
`failbit` when the stream is not good; otherwise `n` bytes are discarded and no
flag changes, or, when fewer than `n` remain, all of them are discarded and
`eofbit` alone is set. -/
def IStream.ignore (s : IStream) (n : Nat) : IStream :=
  if s.good then
    if n ≤ s.rest.length then { s with rest := s.rest.drop n }
    else { s with rest := [], eofbit := true }
  else { s with failbit := true }

/-- The value of a `uint32_t` whose four bytes in memory are `b0 b1 b2 b3`. -/
def loadU32 (le : Bool) (b0 b1 b2 b3 : Byte) : Nat :=
  if le then b0.val + b1.val * 2 ^ 8 + b2.val * 2 ^ 16 + b3.val * 2 ^ 24
  else b0.val * 2 ^ 24 + b1.val * 2 ^ 16 + b2.val * 2 ^ 8 + b3.val

/-- Reversal of the four bytes of a `uint32_t`. -/
def bswap32 (x : Nat) : Nat :=
  (x % 2 ^ 8) * 2 ^ 24 + (x / 2 ^ 8 % 2 ^ 8) * 2 ^ 16 + (x / 2 ^ 16 % 2 ^ 8) * 2 ^ 8
    + (x / 2 ^ 24 % 2 ^ 8)

/-- Library `ntohl`: network (big-endian) to host order. -/
def ntohl (le : Bool) (x : Nat) : Nat := if le then bswap32 x else x

/-- Library `strncmp(s1, s2, n)`: the difference of the first pair of differing
bytes among the first `n`, `0` when there is none before a NUL or before `n`
bytes were compared.  A list that ends is read as ending in NUL. -/
def strncmp : List Byte → List Byte → Nat → Int
  | _, _, 0 => 0
  | s1, s2, n + 1 =>
    if s1.headD 0 ≠ s2.headD 0 then ((s1.headD 0).val : Int) - ((s2.headD 0).val : Int)
    else if s1.headD 0 = 0 then 0
    else strncmp s1.tail s2.tail n

/-- Library `strlen` on an array that holds exactly the bytes `data`: the index
of the first NUL, `none` when there is no NUL inside the array. -/
def strlen : List Byte → Option Nat
  | [] => none
  | b :: bs => if b = 0 then some 0 else (strlen bs).map (· + 1)

/-- Library `strndup(s, n)`: the bytes of `s` before its first NUL, at most `n`. -/
def strndup (s : List Byte) (n : Nat) : List Byte :=
  (s.take n).takeWhile (· ≠ 0)

/-- Subtraction of `size_t` values (64 bits). -/
def subSize (a b : Nat) : Nat := (a + 2 ^ 64 - b % 2 ^ 64) % 2 ^ 64

/-- Capacity of `TextChunk::keyword`. -/
def keywordCapacity : Nat := 80

/-- The array `pngHdr` of the constructor. -/
def pngHdr : List Byte := [0x89, 0x50, 0x4E, 0x47, 0x0D, 0x0A, 0x1A, 0x0A]

/-- String literal "IHDR". -/
def tagIHDR : List Byte := [0x49, 0x48, 0x44, 0x52]

/-- String literal "tEXt". -/
def tagTEXT : List Byte := [0x74, 0x45, 0x58, 0x74]

/-- Method `PngInfo::parseTEXT(data, chunkHdr)`, `data` being the array of
`length = chunkHdr.length` bytes that `loadTEXT` filled. -/
def parseTEXT (data : List Byte) (length : Nat) (png : PngInfo) : Outcome PngInfo :=
  match strlen data with
  | none => .undefined .strlenPastBuffer
  | some keywordLen =>
    let text := strndup (data.drop (keywordLen + 1)) (subSize (subSize length keywordLen) 1)
    if keywordCapacity < length then .undefined .keywordOverflow
    else .done { png with
      textChunks := png.textChunks ++ [{ keyword := data.take length, text := text }] }

/-- Method `PngInfo::loadTEXT(file, chunkHdr)`. -/
def loadTEXT (file : IStream) (length : Nat) (png : PngInfo) : Outcome (IStream × PngInfo) :=
  if ((file.read length).2).fail then .threw .cantReadText
  else
    match parseTEXT (file.read length).1 length png with
    | .done png1 => .done ((file.read length).2, png1)
    | .threw e => .threw e
    | .undefined v => .undefined v
    | .outOfFuel => .outOfFuel

/-- The 13 bytes read over `hdr`, then `ntohl` on `width` and `height`. -/
def decodeIhdr (le : Bool) (raw : List Byte) : IhdrChunk :=
  { width := ntohl le (loadU32 le (raw.getD 0 0) (raw.getD 1 0) (raw.getD 2 0) (raw.getD 3 0))
    height := ntohl le (loadU32 le (raw.getD 4 0) (raw.getD 5 0) (raw.getD 6 0) (raw.getD 7 0))
    bitDepth := raw.getD 8 0
    colorType := raw.getD 9 0
    compression := raw.getD 10 0
    filter := raw.getD 11 0
    interlace := raw.getD 12 0 }

/-- Method `PngInfo::loadIHDR(file, chunkHdr)`. -/
def loadIHDR (le : Bool) (file : IStream) (length : Nat) (png : PngInfo) :
    Outcome (IStream × PngInfo) :=
  if length ≠ 13 then .threw .badIhdrSize
  else if ((file.read 13).2).fail then .threw .cantReadIhdr
  else .done ((file.read 13).2, { png with hdr := some (decodeIhdr le (file.read 13).1) })

/-- The body of the `while` loop of the constructor, up to and including
`file.ignore(4)`; `raw` is the 8 bytes just read over `chunkHdr`. -/
def chunkBody (le : Bool) (raw : List Byte) (file : IStream) (png : PngInfo) :
    Outcome (IStream × PngInfo) :=
  let length := ntohl le (loadU32 le (raw.getD 0 0) (raw.getD 1 0) (raw.getD 2 0) (raw.getD 3 0))
  let type := raw.drop 4
  let handled : Outcome (IStream × PngInfo) :=
    if strncmp tagIHDR type 4 = 0 then loadIHDR le file length png
    else if strncmp tagTEXT type 4 = 0 then loadTEXT file length png
    else if ((file.ignore length)).fail then .threw .cantSkipChunk
    else .done (file.ignore length, png)
  match handled with
  | .done (file1, png1) =>
    if ((file1.ignore 4)).fail then .threw .cantReadChecksum
    else .done (file1.ignore 4, png1)
  | .threw e => .threw e
  | .undefined v => .undefined v
  | .outOfFuel => .outOfFuel

/-- The `while (file.read(&chunkHdr, 8))` loop of the constructor; `fuel` bounds
the number of iterations. -/
def chunkLoop (le : Bool) : Nat → IStream → PngInfo → Outcome PngInfo
  | 0, _, _ => .outOfFuel
  | fuel + 1, file, png =>
    if ((file.read 8).2).fail then .done png
    else
      match chunkBody le (file.read 8).1 (file.read 8).2 png with
      | .done (file1, png1) => chunkLoop le fuel file1 png1
      | .threw e => .threw e
      | .undefined v => .undefined v
      | .outOfFuel => .outOfFuel

/-- The constructor `PngInfo::PngInfo(fname)` on a file that opens and has the
content `input`.  Every iteration of the loop extracts at least 8 bytes, so
`input.length` iterations are never used up. -/
def parse (le : Bool) (input : List Byte) : Outcome PngInfo :=
  if (((IStream.open input).read 8).2).fail then .threw .cantReadPngHeader
  else if strncmp ((IStream.open input).read 8).1 pngHdr 8 ≠ 0 then .threw .pngHeaderMismatch
  else chunkLoop le input.length ((IStream.open input).read 8).2
    { textChunks := [], hdr := none }

/-- The keyword as `main` prints it with `%s`: the bytes of the field before the
first NUL. -/
def cstr (field : List Byte) : List Byte := field.takeWhile (· ≠ 0)

/-! ## Chunks as they lie in the file -/

/-- Big-endian value of four wire bytes. -/
def be32 (b0 b1 b2 b3 : Byte) : Nat :=
  b0.val * 2 ^ 24 + b1.val * 2 ^ 16 + b2.val * 2 ^ 8 + b3.val

/-- One chunk of a PNG stream: four length bytes, four type bytes, the payload
and the four trailing bytes. -/
structure Chunk where
  l0 : Byte
  l1 : Byte
  l2 : Byte
  l3 : Byte
  t0 : Byte
  t1 : Byte
  t2 : Byte
  t3 : Byte
  payload : List Byte
  c0 : Byte
  c1 : Byte
  c2 : Byte
  c3 : Byte
  deriving DecidableEq, Repr

/-- The length the chunk header declares. -/
def Chunk.length (c : Chunk) : Nat := be32 c.l0 c.l1 c.l2 c.l3

/-- The four type bytes. -/
def Chunk.tag (c : Chunk) : List Byte := [c.t0, c.t1, c.t2, c.t3]

/-- The 8 header bytes. -/
def Chunk.header (c : Chunk) : List Byte :=
  [c.l0, c.l1, c.l2, c.l3, c.t0, c.t1, c.t2, c.t3]

/-- The bytes of the chunk in file order. -/
def Chunk.bytes (c : Chunk) : List Byte :=
  c.header ++ (c.payload ++ [c.c0, c.c1, c.c2, c.c3])

/-- The bytes of a sequence of chunks. -/
def wire : List Chunk → List Byte
  | [] => []
  | c :: cs => c.bytes ++ wire cs

/-- A chunk that is wholly present and that the reader takes in without an
error: the payload has the declared length; an IHDR chunk declares 13 bytes; a
tEXt payload has at most 80 bytes and holds a NUL. -/
def Chunk.Complete (c : Chunk) : Prop :=
  c.payload.length = c.length ∧
  (c.tag = tagIHDR → c.length = 13) ∧
  (c.tag = tagTEXT → c.length ≤ keywordCapacity ∧ (0 : Byte) ∈ c.payload)

instance (c : Chunk) : Decidable c.Complete :=
  inferInstanceAs (Decidable (c.payload.length = c.length ∧
    (c.tag = tagIHDR → c.length = 13) ∧
    (c.tag = tagTEXT → c.length ≤ keywordCapacity ∧ (0 : Byte) ∈ c.payload)))

/-- What a complete chunk does to the document: an IHDR chunk replaces `hdr`, a
tEXt chunk appends one record, any other chunk changes nothing.  That the loop
body does this is `chunkBody_complete`. -/
def Chunk.apply (le : Bool) (c : Chunk) (png : PngInfo) : PngInfo :=
  if c.tag = tagIHDR then { png with hdr := some (decodeIhdr le c.payload) }
  else if c.tag = tagTEXT then
    { png with textChunks := png.textChunks ++
        [{ keyword := c.payload
           text := strndup (c.payload.drop ((cstr c.payload).length + 1))
             (c.payload.length - (cstr c.payload).length - 1) }] }
  else png

/-- The document after a sequence of complete chunks. -/
def applyAll (le : Bool) : List Chunk → PngInfo → PngInfo
  | [], png => png
  | c :: cs, png => applyAll le cs (c.apply le png)

/-! ## Inputs used as examples -/

/-- The tEXt chunk of the specification: payload "title", NUL, "Hello World". -/
def titleChunk : Chunk :=
  { l0 := 0, l1 := 0, l2 := 0, l3 := 17, t0 := 0x74, t1 := 0x45, t2 := 0x58, t3 := 0x74,
    payload := [0x74, 0x69, 0x74, 0x6C, 0x65, 0, 0x48, 0x65, 0x6C, 0x6C, 0x6F, 0x20, 0x57, 0x6F,
      0x72, 0x6C, 0x64],
    c0 := 0, c1 := 0, c2 := 0, c3 := 0 }

/-- A tEXt chunk with keyword "k" and a value of 79 letters: 81 payload bytes. -/
def longValueChunk : Chunk :=
  { l0 := 0, l1 := 0, l2 := 0, l3 := 81, t0 := 0x74, t1 := 0x45, t2 := 0x58, t3 := 0x74,
    payload := [0x6B, 0] ++ List.replicate 79 0x61,
    c0 := 0, c1 := 0, c2 := 0, c3 := 0 }

/-- A tEXt chunk whose keyword has 80 letters, then NUL and the value "v": the
first NUL of the 82 payload bytes is at index 80. -/
def longKeywordChunk : Chunk :=
  { l0 := 0, l1 := 0, l2 := 0, l3 := 82, t0 := 0x74, t1 := 0x45, t2 := 0x58, t3 := 0x74,
    payload := List.replicate 80 0x61 ++ [0, 0x76],
    c0 := 0, c1 := 0, c2 := 0, c3 := 0 }

/-- A tEXt chunk with the payload "abc": three bytes, no NUL. -/
def noNulChunk : Chunk :=
  { l0 := 0, l1 := 0, l2 := 0, l3 := 3, t0 := 0x74, t1 := 0x45, t2 := 0x58, t3 := 0x74,
    payload := [0x61, 0x62, 0x63],
    c0 := 0, c1 := 0, c2 := 0, c3 := 0 }

/-- A tEXt chunk of declared length 0. -/
def emptyTextChunk : Chunk :=
  { l0 := 0, l1 := 0, l2 := 0, l3 := 0, t0 := 0x74, t1 := 0x45, t2 := 0x58, t3 := 0x74,
    payload := [],
    c0 := 0, c1 := 0, c2 := 0, c3 := 0 }

/-- An IHDR chunk: 256 by 512 pixels, bit depth 8, colour type 6. -/
def ihdrChunk : Chunk :=
  { l0 := 0, l1 := 0, l2 := 0, l3 := 13, t0 := 0x49, t1 := 0x48, t2 := 0x44, t3 := 0x52,
    payload := [0, 0, 1, 0, 0, 0, 2, 0, 8, 6, 0, 0, 0],
    c0 := 0xDE, c1 := 0xAD, c2 := 0xBE, c3 := 0xEF }

/-- The chunk of type "abcd" with 10 payload bytes of the specification. -/
def abcdChunk : Chunk :=
  { l0 := 0, l1 := 0, l2 := 0, l3 := 10, t0 := 0x61, t1 := 0x62, t2 := 0x63, t3 := 0x64,
    payload := [1, 2, 3, 4, 5, 6, 7, 8, 9, 10],
    c0 := 0x11, c1 := 0x22, c2 := 0x33, c3 := 0x44 }

/-- The document before any chunk was read. -/
def emptyDoc : PngInfo := { textChunks := [], hdr := none }

/-! ## Streams that end inside the last trailing field, and counting -/

/-- The bytes of a chunk whose trailing field lacks its last `cut` bytes. -/
def Chunk.bytesCut (c : Chunk) (cut : Nat) : List Byte :=
  c.header ++ (c.payload ++ [c.c0, c.c1, c.c2, c.c3].take (4 - cut))

/-- The bytes of a sequence of chunks, the trailing field of the last one
lacking its last `cut` bytes. -/
def wireCut : List Chunk → Nat → List Byte
  | [], _ => []
  | [c], cut => c.bytesCut cut
  | c :: d :: cs, cut => c.bytes ++ wireCut (d :: cs) cut

/-- The parts of a stream that the constructor reads to its end without an
error: complete chunks `cs`, of which the last may lack up to `cut ≤ 4` bytes
of its trailing field at the end of the file, or else fewer than 8 bytes `tail`
after the last chunk. -/
def Accepted (cs : List Chunk) (cut : Nat) (tail : List Byte) : Prop :=
  (∀ c ∈ cs, c.Complete) ∧ cut ≤ 4 ∧ tail.length < 8 ∧ (cut ≠ 0 → tail = [])

instance (cs : List Chunk) (cut : Nat) (tail : List Byte) : Decidable (Accepted cs cut tail) :=
  inferInstanceAs (Decidable ((∀ c ∈ cs, c.Complete) ∧ cut ≤ 4 ∧ tail.length < 8 ∧
    (cut ≠ 0 → tail = [])))

/-- The record that `parseTEXT` appends for the payload of a complete tEXt
chunk. -/
def Chunk.textRecord (c : Chunk) : TextChunk :=
  { keyword := c.payload
    text := strndup (c.payload.drop ((cstr c.payload).length + 1))
      (c.payload.length - (cstr c.payload).length - 1) }

/-- Two chunks that differ at most in their four trailing bytes. -/
def Chunk.SameButTrailer (c d : Chunk) : Prop :=
  c.header = d.header ∧ c.payload = d.payload

instance (c d : Chunk) : Decidable (c.SameButTrailer d) :=
  inferInstanceAs (Decidable (c.header = d.header ∧ c.payload = d.payload))

/-- The big-endian encoding of a 32-bit value, most significant byte first.  The
program only decodes; this is the encoding that the round trip is stated
against. -/
def encodeBE32 (x : Nat) : List Byte :=
  [⟨x / 2 ^ 24 % 256, Nat.mod_lt _ (by decide)⟩, ⟨x / 2 ^ 16 % 256, Nat.mod_lt _ (by decide)⟩,
   ⟨x / 2 ^ 8 % 256, Nat.mod_lt _ (by decide)⟩, ⟨x % 256, Nat.mod_lt _ (by decide)⟩]

/-- The number of iterations of the `while` loop of the constructor that run to
the end of the loop body, counted along `chunkLoop`. -/
def chunkIterations (le : Bool) : Nat → IStream → PngInfo → Nat
  | 0, _, _ => 0
  | fuel + 1, file, png =>
    if ((file.read 8).2).fail then 0
    else
      match chunkBody le (file.read 8).1 (file.read 8).2 png with
      | .done (file1, png1) => 1 + chunkIterations le fuel file1 png1
      | .threw _ => 0
      | .undefined _ => 0
      | .outOfFuel => 0

/-- A tEXt chunk with the payload "k", NUL, "a", NUL, "b": the value holds a NUL. -/
def nulValueChunk : Chunk :=
  { l0 := 0, l1 := 0, l2 := 0, l3 := 5, t0 := 0x74, t1 := 0x45, t2 := 0x58, t3 := 0x74,
    payload := [0x6B, 0, 0x61, 0, 0x62],
    c0 := 0, c1 := 0, c2 := 0, c3 := 0 }

/-- A tEXt chunk with the payload "k", NUL, "v". -/
def tinyTextChunk : Chunk :=
  { l0 := 0, l1 := 0, l2 := 0, l3 := 3, t0 := 0x74, t1 := 0x45, t2 := 0x58, t3 := 0x74,
    payload := [0x6B, 0, 0x76],
    c0 := 1, c1 := 2, c2 := 3, c3 := 4 }

/-- The chunk `tinyTextChunk` with other trailing bytes. -/
def tinyTextChunkB : Chunk :=
  { tinyTextChunk with c0 := 0xFF, c1 := 0xFE, c2 := 0xFD, c3 := 0xFC }

/-- A second IHDR chunk: 3 by 5 pixels, bit depth 1, colour type 3, interlaced. -/
def ihdrChunkB : Chunk :=
  { l0 := 0, l1 := 0, l2 := 0, l3 := 13, t0 := 0x49, t1 := 0x48, t2 := 0x44, t3 := 0x52,
    payload := [0, 0, 0, 3, 0, 0, 0, 5, 1, 3, 0, 0, 1],
    c0 := 0, c1 := 0, c2 := 0, c3 := 0 }

/-- A chunk of type "abcd" that declares no payload. -/
def emptyAbcdChunk : Chunk :=
  { l0 := 0, l1 := 0, l2 := 0, l3 := 0, t0 := 0x61, t1 := 0x62, t2 := 0x63, t3 := 0x64,
    payload := [],
    c0 := 0, c1 := 0, c2 := 0, c3 := 0 }

/-! ## Arithmetic and string helpers -/

theorem ntohl_loadU32 (le : Bool) (b0 b1 b2 b3 : Byte) :
    ntohl le (loadU32 le b0 b1 b2 b3) = be32 b0 b1 b2 b3 := by
  cases le <;> simp [ntohl, loadU32, bswap32, be32]
  omega

theorem be32_lt (b0 b1 b2 b3 : Byte) : be32 b0 b1 b2 b3 < 2 ^ 32 := by
  simp [be32]; omega

theorem strncmp_eq_zero_iff (n : Nat) : ∀ (s1 s2 : List Byte), n ≤ s1.length → n ≤ s2.length →
    ((∀ b ∈ s1.take n, b ≠ 0) ∨ (∀ b ∈ s2.take n, b ≠ 0)) →
    (strncmp s1 s2 n = 0 ↔ s1.take n = s2.take n) := by
  induction n with
  | zero => intro s1 s2 _ _ _; simp [strncmp]
  | succ n ih =>
    intro s1 s2 h1 h2 hz
    match s1, s2, h1, h2, hz with
    | [], _, h1, _, _ => simp at h1
    | _ :: _, [], _, h2, _ => simp at h2
    | a :: s1, b :: s2, h1, h2, hz =>
      simp only [List.length_cons, Nat.add_le_add_iff_right] at h1 h2
      simp only [List.take_succ_cons, List.mem_cons, forall_eq_or_imp] at hz
      by_cases hab : a = b
      · subst hab
        have ha : a ≠ 0 := by rcases hz with h | h <;> exact h.1
        have hz1 : (∀ b ∈ s1.take n, b ≠ 0) ∨ (∀ b ∈ s2.take n, b ≠ 0) := by
          rcases hz with h | h
          · exact Or.inl h.2
          · exact Or.inr h.2
        simp [strncmp, ha, ih s1 s2 h1 h2 hz1]
      · have hv : (a.val : Int) - (b.val : Int) ≠ 0 := by
          intro h
          apply hab
          apply Fin.ext
          omega
        simp [strncmp, hab, hv]

theorem strncmp_tag (tag : List Byte) (t0 t1 t2 t3 : Byte) (h4 : tag.length = 4)
    (hz : ∀ b ∈ tag, b ≠ 0) :
    (strncmp tag [t0, t1, t2, t3] 4 = 0 ↔ [t0, t1, t2, t3] = tag) := by
  have h := strncmp_eq_zero_iff 4 tag [t0, t1, t2, t3] (by omega) (by simp)
    (Or.inl (fun b hb => hz b (List.mem_of_mem_take hb)))
  rw [h, List.take_of_length_le (by omega)]
  simp only [List.take_succ_cons, List.take_zero]
  exact eq_comm

theorem strncmp_IHDR (t0 t1 t2 t3 : Byte) :
    (strncmp tagIHDR [t0, t1, t2, t3] 4 = 0 ↔ [t0, t1, t2, t3] = tagIHDR) :=
  strncmp_tag tagIHDR t0 t1 t2 t3 rfl (by simp [tagIHDR])

theorem strncmp_TEXT (t0 t1 t2 t3 : Byte) :
    (strncmp tagTEXT [t0, t1, t2, t3] 4 = 0 ↔ [t0, t1, t2, t3] = tagTEXT) :=
  strncmp_tag tagTEXT t0 t1 t2 t3 rfl (by simp [tagTEXT])

theorem strlen_of_mem : ∀ (data : List Byte), (0 : Byte) ∈ data →
    strlen data = some (cstr data).length
  | [], h => by simp at h
  | b :: bs, h => by
    by_cases hb : b = 0
    · simp [strlen, cstr, hb]
    · have hm : (0 : Byte) ∈ bs := by
        rcases List.mem_cons.1 h with h0 | h0
        · exact absurd h0.symm hb
        · exact h0
      have ih := strlen_of_mem bs hm
      simp [strlen, cstr, hb, ih] at *

theorem strlen_of_not_mem : ∀ (data : List Byte), (0 : Byte) ∉ data → strlen data = none
  | [], _ => rfl
  | b :: bs, h => by
    have hb : b ≠ 0 := fun e => h (by simp [e])
    have hm : (0 : Byte) ∉ bs := fun e => h (List.mem_cons_of_mem _ e)
    simp [strlen, hb, strlen_of_not_mem bs hm]

theorem cstr_length_lt : ∀ (data : List Byte), (0 : Byte) ∈ data →
    (cstr data).length < data.length
  | [], h => by simp at h
  | b :: bs, h => by
    by_cases hb : b = 0
    · simp [cstr, hb]
    · have hm : (0 : Byte) ∈ bs := by
        rcases List.mem_cons.1 h with h0 | h0
        · exact absurd h0.symm hb
        · exact h0
      have ih := cstr_length_lt bs hm
      simp [cstr, hb] at *
      exact ih

theorem subSize_small (a b : Nat) (hb : b ≤ a) (ha : a < 2 ^ 32) : subSize a b = a - b := by
  unfold subSize
  have h1 : b % 2 ^ 64 = b := Nat.mod_eq_of_lt (by omega)
  rw [h1]
  omega

/-! ## The stream -/

theorem read_append (xs ys : List Byte) (n : Nat) (h : n = xs.length) :
    IStream.read ⟨xs ++ ys, false, false⟩ n = (xs, ⟨ys, false, false⟩) := by
  subst h
  simp [IStream.read, IStream.good]

theorem ignore_append (xs ys : List Byte) (n : Nat) (h : n = xs.length) :
    IStream.ignore ⟨xs ++ ys, false, false⟩ n = ⟨ys, false, false⟩ := by
  subst h
  simp [IStream.ignore, IStream.good]

theorem read_short (xs : List Byte) (n : Nat) (h : xs.length < n) :
    IStream.read ⟨xs, false, false⟩ n = (xs, ⟨[], true, true⟩) := by
  simp [IStream.read, IStream.good]
  omega

/-! ## One complete chunk -/

theorem parseTEXT_complete (data : List Byte) (png : PngInfo) (n : Nat) (hn : n = data.length)
    (hcap : data.length ≤ keywordCapacity) (h0 : (0 : Byte) ∈ data) :
    parseTEXT data n png = .done { png with
      textChunks := png.textChunks ++
        [{ keyword := data
           text := strndup (data.drop ((cstr data).length + 1))
             (data.length - (cstr data).length - 1) }] } := by
  subst hn
  have hk := cstr_length_lt data h0
  have h32 : data.length < 2 ^ 32 := by unfold keywordCapacity at hcap; omega
  have hs1 : subSize data.length (cstr data).length = data.length - (cstr data).length :=
    subSize_small _ _ (by omega) h32
  have hs2 : subSize (data.length - (cstr data).length) 1
      = data.length - (cstr data).length - 1 :=
    subSize_small _ _ (by omega) (by omega)
  simp [parseTEXT, strlen_of_mem data h0, hs1, hs2, Nat.not_lt.2 hcap]

theorem chunkBody_complete (le : Bool) (c : Chunk) (hc : c.Complete) (tail : List Byte)
    (png : PngInfo) :
    chunkBody le c.header ⟨c.payload ++ ([c.c0, c.c1, c.c2, c.c3] ++ tail), false, false⟩ png
      = .done (⟨tail, false, false⟩, c.apply le png) := by
  obtain ⟨hlen, hI, hT⟩ := hc
  have hlen2 : be32 c.l0 c.l1 c.l2 c.l3 = c.payload.length := hlen.symm
  have hign : IStream.ignore ⟨c.c0 :: c.c1 :: c.c2 :: c.c3 :: tail, false, false⟩ 4
      = ⟨tail, false, false⟩ := ignore_append [c.c0, c.c1, c.c2, c.c3] _ _ rfl
  have hne : ¬ tagTEXT = tagIHDR := by simp [tagTEXT, tagIHDR]
  unfold chunkBody
  simp only [Chunk.header, List.getD_cons_zero, List.getD_cons_succ, ntohl_loadU32,
    List.drop_succ_cons, List.drop_zero, strncmp_IHDR, strncmp_TEXT, hlen2]
  by_cases h1 : c.tag = tagIHDR
  · have h13 : c.payload.length = 13 := by rw [hlen]; exact hI h1
    have h1c : [c.t0, c.t1, c.t2, c.t3] = tagIHDR := h1
    simp [h1c, loadIHDR, h13, read_append c.payload _ 13 h13.symm, hign, IStream.fail,
      Chunk.apply, h1]
  · have h1c : ¬ [c.t0, c.t1, c.t2, c.t3] = tagIHDR := h1
    by_cases h2 : c.tag = tagTEXT
    · have h2c : [c.t0, c.t1, c.t2, c.t3] = tagTEXT := h2
      obtain ⟨hcap, h0⟩ := hT h2
      rw [hlen.symm] at hcap
      simp [h1c, h2c, loadTEXT, read_append c.payload _ _ rfl, IStream.fail,
        parseTEXT_complete c.payload png _ rfl hcap h0, hign, Chunk.apply, h1, h2, hne]
    · have h2c : ¬ [c.t0, c.t1, c.t2, c.t3] = tagTEXT := h2
      simp [h1c, h2c, ignore_append c.payload _ _ rfl, IStream.fail, hign, Chunk.apply, h1, h2]

/-! ## The loop over complete chunks -/

theorem chunkLoop_step (le : Bool) (fuel : Nat) (c : Chunk) (hc : c.Complete)
    (tail : List Byte) (png : PngInfo) :
    chunkLoop le (fuel + 1) ⟨c.bytes ++ tail, false, false⟩ png
      = chunkLoop le fuel ⟨tail, false, false⟩ (c.apply le png) := by
  have hr : IStream.read ⟨c.bytes ++ tail, false, false⟩ 8
      = (c.header, ⟨c.payload ++ ([c.c0, c.c1, c.c2, c.c3] ++ tail), false, false⟩) := by
    have hb : c.bytes ++ tail = c.header ++ (c.payload ++ ([c.c0, c.c1, c.c2, c.c3] ++ tail)) := by
      simp [Chunk.bytes]
    rw [hb]
    exact read_append _ _ 8 rfl
  rw [chunkLoop, hr]
  simp only [IStream.fail, chunkBody_complete le c hc tail png]
  simp

theorem chunkLoop_wire (le : Bool) : ∀ (cs : List Chunk) (fuel : Nat) (tail : List Byte)
    (png : PngInfo), (∀ c ∈ cs, c.Complete) →
    chunkLoop le (fuel + cs.length) ⟨wire cs ++ tail, false, false⟩ png
      = chunkLoop le fuel ⟨tail, false, false⟩ (applyAll le cs png)
  | [], fuel, tail, png, _ => by simp [wire, applyAll]
  | c :: cs, fuel, tail, png, h => by
    have hc : c.Complete := h c (List.mem_cons_self _ _)
    have hcs : ∀ d ∈ cs, d.Complete := fun d hd => h d (List.mem_cons_of_mem _ hd)
    have e1 : fuel + (c :: cs).length = (fuel + cs.length) + 1 := by simp; omega
    have e2 : wire (c :: cs) ++ tail = c.bytes ++ (wire cs ++ tail) := by simp [wire]
    rw [e1, e2, chunkLoop_step le _ c hc, chunkLoop_wire le cs fuel tail _ hcs]
    rfl

theorem chunkLoop_short (le : Bool) (fuel : Nat) (tail : List Byte) (png : PngInfo)
    (h : tail.length < 8) :
    chunkLoop le (fuel + 1) ⟨tail, false, false⟩ png = .done png := by
  rw [chunkLoop, read_short tail 8 h]
  simp [IStream.fail]

theorem wire_length : ∀ (cs : List Chunk), 12 * cs.length ≤ (wire cs).length
  | [] => by simp [wire]
  | c :: cs => by
    have ih := wire_length cs
    simp [wire, Chunk.bytes, Chunk.header]
    omega

theorem strncmp_pngHdr (s : List Byte) (h : s.length = 8) :
    (strncmp s pngHdr 8 = 0 ↔ s = pngHdr) := by
  have hz : ∀ b ∈ pngHdr.take 8, b ≠ 0 := by simp [pngHdr]
  have h := strncmp_eq_zero_iff 8 s pngHdr (by omega) (by simp [pngHdr]) (Or.inr hz)
  rw [h, List.take_of_length_le (by omega)]
  simp [pngHdr]

theorem parse_signature (le : Bool) (rest : List Byte) :
    parse le (pngHdr ++ rest)
      = chunkLoop le (8 + rest.length) ⟨rest, false, false⟩ { textChunks := [], hdr := none } := by
  have hr : (IStream.open (pngHdr ++ rest)).read 8 = (pngHdr, ⟨rest, false, false⟩) :=
    read_append pngHdr rest 8 rfl
  have hs : strncmp pngHdr pngHdr 8 = 0 := (strncmp_pngHdr pngHdr rfl).2 rfl
  have hl : (pngHdr ++ rest).length = 8 + rest.length := by
    simp [pngHdr]; omega
  unfold parse
  rw [hr, hl]
  simp [IStream.fail, hs]

/-! ## Fuel -/

theorem read_rest_le (s : IStream) (n : Nat) : ((s.read n).2).rest.length ≤ s.rest.length := by
  unfold IStream.read
  split
  · split <;> simp
  · simp

theorem ignore_rest_le (s : IStream) (n : Nat) : (s.ignore n).rest.length ≤ s.rest.length := by
  unfold IStream.ignore
  split
  · split <;> simp
  · simp

theorem read_ok_rest (s : IStream) (n : Nat) (h : ((s.read n).2).fail = false) :
    ((s.read n).2).rest.length + n = s.rest.length := by
  unfold IStream.read at h ⊢
  split at h
  · split at h
    · rename_i h1 h2
      simp [h1, h2]
    · simp [IStream.fail] at h
  · simp [IStream.fail] at h

theorem chunkBody_rest_le (le : Bool) (raw : List Byte) (file file1 : IStream)
    (png png1 : PngInfo) (h : chunkBody le raw file png = .done (file1, png1)) :
    file1.rest.length ≤ file.rest.length := by
  unfold chunkBody at h
  simp only at h
  split at h
  · rename_i f2 p2 hh
    split at h
    · simp at h
    · simp only [Outcome.done.injEq, Prod.mk.injEq] at h
      rw [← h.1]
      have h4 := ignore_rest_le f2 4
      have h5 : f2.rest.length ≤ file.rest.length := by
        split at hh
        · unfold loadIHDR at hh
          split at hh
          · simp at hh
          · split at hh
            · simp at hh
            · simp only [Outcome.done.injEq, Prod.mk.injEq] at hh
              rw [← hh.1]; exact read_rest_le _ _
        · split at hh
          · unfold loadTEXT at hh
            split at hh
            · simp at hh
            · split at hh <;> simp only [Outcome.done.injEq, Prod.mk.injEq, reduceCtorEq] at hh
              rw [← hh.1]; exact read_rest_le _ _
          · split at hh
            · simp at hh
            · simp only [Outcome.done.injEq, Prod.mk.injEq] at hh
              rw [← hh.1]; exact ignore_rest_le _ _
      omega
  · simp at h
  · simp at h
  · simp at h

theorem chunkLoop_fuel (le : Bool) : ∀ (f1 f2 : Nat) (file : IStream) (png : PngInfo),
    file.rest.length < f1 → file.rest.length < f2 →
    chunkLoop le f1 file png = chunkLoop le f2 file png
  | 0, _, _, _, h1, _ => by omega
  | _ + 1, 0, _, _, _, h2 => by omega
  | f1 + 1, f2 + 1, file, png, h1, h2 => by
    rw [chunkLoop, chunkLoop]
    by_cases hf : ((file.read 8).2).fail = true
    · simp [hf]
    · have hf0 : ((file.read 8).2).fail = false := by simpa using hf
      have hlen := read_ok_rest file 8 hf0
      simp only [hf, if_false]
      cases hb : chunkBody le (file.read 8).1 (file.read 8).2 png with
      | done a =>
        obtain ⟨file1, png1⟩ := a
        have hle := chunkBody_rest_le le _ _ _ _ _ hb
        exact chunkLoop_fuel le f1 f2 file1 png1 (by omega) (by omega)
      | threw e => rfl
      | undefined v => rfl
      | outOfFuel => rfl

theorem parse_wire (le : Bool) (cs : List Chunk) (tail : List Byte)
    (h : ∀ c ∈ cs, c.Complete) :
    parse le (pngHdr ++ (wire cs ++ tail))
      = chunkLoop le (tail.length + 1) ⟨tail, false, false⟩
          (applyAll le cs { textChunks := [], hdr := none }) := by
  have hw := wire_length cs
  have e : 8 + (wire cs ++ tail).length
      = (8 + (wire cs).length + tail.length - cs.length) + cs.length := by
    simp; omega
  rw [parse_signature, e, chunkLoop_wire le cs _ tail _ h]
  exact chunkLoop_fuel le _ _ _ _ (by simp; omega) (by simp)

/-! ## Which errors the chunk loop throws -/

theorem loadIHDR_threw (le : Bool) (file : IStream) (n : Nat) (png : PngInfo) (e : PngError)
    (h : loadIHDR le file n png = .threw e) : e = .badIhdrSize ∨ e = .cantReadIhdr := by
  unfold loadIHDR at h
  split at h
  · simp only [Outcome.threw.injEq] at h; exact Or.inl h.symm
  · split at h
    · simp only [Outcome.threw.injEq] at h; exact Or.inr h.symm
    · simp at h

theorem parseTEXT_not_threw (data : List Byte) (n : Nat) (png : PngInfo) (e : PngError) :
    parseTEXT data n png ≠ .threw e := by
  unfold parseTEXT
  split
  · simp
  · simp only
    split <;> simp

theorem loadTEXT_threw (file : IStream) (n : Nat) (png : PngInfo) (e : PngError)
    (h : loadTEXT file n png = .threw e) : e = .cantReadText := by
  unfold loadTEXT at h
  split at h
  · simp only [Outcome.threw.injEq] at h; exact h.symm
  · split at h
    · simp at h
    · rename_i e1 he
      exact absurd he (parseTEXT_not_threw _ _ _ _)
    · simp at h
    · simp at h

theorem chunkBody_threw (le : Bool) (raw : List Byte) (file : IStream) (png : PngInfo)
    (e : PngError) (h : chunkBody le raw file png = .threw e) :
    e = .badIhdrSize ∨ e = .cantReadIhdr ∨ e = .cantReadText ∨ e = .cantSkipChunk
      ∨ e = .cantReadChecksum := by
  unfold chunkBody at h
  simp only at h
  split at h
  · split at h
    · simp only [Outcome.threw.injEq] at h; simp [← h]
    · simp at h
  · rename_i e1 hh
    simp only [Outcome.threw.injEq] at h
    subst h
    split at hh
    · rcases loadIHDR_threw _ _ _ _ _ hh with h1 | h1 <;> simp [h1]
    · split at hh
      · simp [loadTEXT_threw _ _ _ _ hh]
      · split at hh
        · simp only [Outcome.threw.injEq] at hh; simp [← hh]
        · simp at hh
  · simp at h
  · simp at h

theorem chunkLoop_threw (le : Bool) : ∀ (fuel : Nat) (file : IStream) (png : PngInfo)
    (e : PngError), chunkLoop le fuel file png = .threw e →
    e = .badIhdrSize ∨ e = .cantReadIhdr ∨ e = .cantReadText ∨ e = .cantSkipChunk
      ∨ e = .cantReadChecksum
  | 0, _, _, _, h => by simp [chunkLoop] at h
  | fuel + 1, file, png, e, h => by
    rw [chunkLoop] at h
    split at h
    · simp at h
    · split at h
      · exact chunkLoop_threw le fuel _ _ e h
      · rename_i e1 hb
        simp only [Outcome.threw.injEq] at h
        subst h
        exact chunkBody_threw le _ _ _ _ hb
      · simp at h
      · simp at h

/-! ## Sequences of chunks, and the signature -/

theorem wire_append : ∀ (as bs : List Chunk), wire (as ++ bs) = wire as ++ wire bs
  | [], bs => by simp [wire]
  | a :: as, bs => by simp [wire, wire_append as bs]

theorem applyAll_append (le : Bool) : ∀ (as bs : List Chunk) (png : PngInfo),
    applyAll le (as ++ bs) png = applyAll le bs (applyAll le as png)
  | [], _, _ => rfl
  | a :: as, bs, png => by simp [applyAll, applyAll_append le as bs]

theorem applyAll_hdr (le : Bool) : ∀ (cs : List Chunk) (png : PngInfo),
    (∀ c ∈ cs, c.tag ≠ tagIHDR) → (applyAll le cs png).hdr = png.hdr
  | [], _, _ => rfl
  | c :: cs, png, h => by
    have hc : c.tag ≠ tagIHDR := h c (List.mem_cons_self _ _)
    have hcs : ∀ d ∈ cs, d.tag ≠ tagIHDR := fun d hd => h d (List.mem_cons_of_mem _ hd)
    rw [applyAll, applyAll_hdr le cs _ hcs]
    unfold Chunk.apply
    simp only [hc, if_false]
    split <;> rfl

theorem parse_long (le : Bool) (input : List Byte) (h : 8 ≤ input.length) :
    parse le input =
      if input.take 8 = pngHdr then
        chunkLoop le input.length ⟨input.drop 8, false, false⟩ { textChunks := [], hdr := none }
      else .threw .pngHeaderMismatch := by
  have hr : (IStream.open input).read 8 = (input.take 8, ⟨input.drop 8, false, false⟩) := by
    simp [IStream.open, IStream.read, IStream.good, h]
  have hs := strncmp_pngHdr (input.take 8) (by simp; omega)
  unfold parse
  rw [hr]
  by_cases he : input.take 8 = pngHdr
  · have h0 := hs.2 he
    simp only [IStream.fail, h0, if_pos he]
    simp
  · have hn : strncmp (input.take 8) pngHdr 8 ≠ 0 := fun h0 => he (hs.1 h0)
    simp [IStream.fail, hn, he]

/-! ## A chunk whose trailing field is cut short -/

theorem ignore_good_fail (xs : List Byte) (n : Nat) :
    (IStream.ignore ⟨xs, false, false⟩ n).fail = false := by
  unfold IStream.ignore
  simp only [IStream.good, Bool.not_false, Bool.and_self, if_true]
  split <;> rfl

theorem ignore_short (xs : List Byte) (n : Nat) (h : xs.length < n) :
    IStream.ignore ⟨xs, false, false⟩ n = ⟨[], true, false⟩ := by
  simp [IStream.ignore, IStream.good]
  omega

theorem chunkBody_payload (le : Bool) (c : Chunk) (hc : c.Complete) (after : List Byte)
    (png : PngInfo) :
    chunkBody le c.header ⟨c.payload ++ after, false, false⟩ png
      = .done (IStream.ignore ⟨after, false, false⟩ 4, c.apply le png) := by
  obtain ⟨hlen, hI, hT⟩ := hc
  have hlen2 : be32 c.l0 c.l1 c.l2 c.l3 = c.payload.length := hlen.symm
  have hign := ignore_good_fail after 4
  have hne : ¬ tagTEXT = tagIHDR := by simp [tagTEXT, tagIHDR]
  unfold chunkBody
  simp only [Chunk.header, List.getD_cons_zero, List.getD_cons_succ, ntohl_loadU32,
    List.drop_succ_cons, List.drop_zero, strncmp_IHDR, strncmp_TEXT, hlen2]
  by_cases h1 : c.tag = tagIHDR
  · have h13 : c.payload.length = 13 := by rw [hlen]; exact hI h1
    have h1c : [c.t0, c.t1, c.t2, c.t3] = tagIHDR := h1
    simp [h1c, loadIHDR, h13, read_append c.payload _ 13 h13.symm, hign, IStream.fail,
      Chunk.apply, h1]
    exact hign
  · have h1c : ¬ [c.t0, c.t1, c.t2, c.t3] = tagIHDR := h1
    by_cases h2 : c.tag = tagTEXT
    · have h2c : [c.t0, c.t1, c.t2, c.t3] = tagTEXT := h2
      obtain ⟨hcap, h0⟩ := hT h2
      rw [hlen.symm] at hcap
      simp [h1c, h2c, loadTEXT, read_append c.payload _ _ rfl, IStream.fail,
        parseTEXT_complete c.payload png _ rfl hcap h0, hign, Chunk.apply, h1, h2, hne]
      exact hign
    · have h2c : ¬ [c.t0, c.t1, c.t2, c.t3] = tagTEXT := h2
      simp [h1c, h2c, ignore_append c.payload _ _ rfl, IStream.fail, hign, Chunk.apply, h1, h2]
      exact hign

theorem chunkLoop_not_good (le : Bool) (fuel : Nat) (xs : List Byte) (f : Bool) (png : PngInfo) :
    chunkLoop le (fuel + 1) ⟨xs, true, f⟩ png = .done png := by
  rw [chunkLoop]
  simp [IStream.read, IStream.good, IStream.fail]

theorem chunkLoop_cut (le : Bool) (fuel : Nat) (c : Chunk) (hc : c.Complete) (t : List Byte)
    (ht : t.length < 4) (png : PngInfo) :
    chunkLoop le (fuel + 2) ⟨c.header ++ (c.payload ++ t), false, false⟩ png
      = .done (c.apply le png) := by
  have hr : IStream.read ⟨c.header ++ (c.payload ++ t), false, false⟩ 8
      = (c.header, ⟨c.payload ++ t, false, false⟩) := read_append _ _ 8 rfl
  rw [chunkLoop, hr]
  simp only [IStream.fail, chunkBody_payload le c hc t png, ignore_short t 4 ht]
  simp only [Bool.false_eq_true, if_false]
  exact chunkLoop_not_good le fuel [] false _

theorem wireCut_zero : ∀ (cs : List Chunk), wireCut cs 0 = wire cs
  | [] => rfl
  | [c] => by simp [wireCut, wire, Chunk.bytesCut, Chunk.bytes]
  | c :: d :: cs => by
    have ih := wireCut_zero (d :: cs)
    simp only [wireCut, wire] at ih ⊢
    rw [ih]

theorem wireCut_snoc : ∀ (cs : List Chunk) (c : Chunk) (cut : Nat),
    wireCut (cs ++ [c]) cut = wire cs ++ c.bytesCut cut
  | [], c, cut => by simp [wireCut, wire]
  | [d], c, cut => by simp [wireCut, wire]
  | d :: e :: cs, c, cut => by
    have ih := wireCut_snoc (e :: cs) c cut
    simp only [List.cons_append, wireCut, wire, List.append_assoc] at ih ⊢
    exact congrArg (fun x => d.bytes ++ x) ih

theorem applyAll_snoc (le : Bool) (cs : List Chunk) (c : Chunk) (png : PngInfo) :
    applyAll le (cs ++ [c]) png = c.apply le (applyAll le cs png) := by
  rw [applyAll_append]; rfl

theorem parse_accepted (le : Bool) (cs : List Chunk) (cut : Nat) (tail : List Byte)
    (h : Accepted cs cut tail) :
    parse le (pngHdr ++ (wireCut cs cut ++ tail)) = .done (applyAll le cs emptyDoc) := by
  obtain ⟨hcs, hcut, htail, hz⟩ := h
  by_cases h0 : cut = 0
  · subst h0
    rw [wireCut_zero, parse_wire le cs tail hcs]
    exact chunkLoop_short le _ tail _ htail
  · have ht : tail = [] := hz h0
    subst ht
    rcases List.eq_nil_or_concat cs with hnil | ⟨cs0, c, hsnoc⟩
    · subst hnil
      have := parse_wire le [] [] (by simp)
      simp only [wire, List.append_nil] at this
      simp only [wireCut, List.append_nil, this]
      exact chunkLoop_short le _ [] _ (by simp)
    · rw [List.concat_eq_append] at hsnoc
      subst hsnoc
      have hcs0 : ∀ d ∈ cs0, d.Complete := fun d hd => hcs d (by simp [hd])
      have hc : c.Complete := hcs c (by simp)
      have e : wireCut (cs0 ++ [c]) cut ++ [] = wire cs0 ++ c.bytesCut cut := by
        rw [List.append_nil]
        have := wireCut_snoc cs0 c cut
        simpa using this
      rw [e, parse_wire le cs0 _ hcs0]
      have hlen : (c.bytesCut cut).length + 1 = ((c.bytesCut cut).length - 1) + 2 := by
        simp [Chunk.bytesCut, Chunk.header]
      rw [hlen]
      have hcl := chunkLoop_cut le ((c.bytesCut cut).length - 1) c hc
        ([c.c0, c.c1, c.c2, c.c3].take (4 - cut)) (by simp; omega)
        (applyAll le cs0 { textChunks := [], hdr := none })
      rw [applyAll_snoc]
      exact hcl

theorem decodeIhdr_fields (le : Bool) (raw : List Byte) :
    decodeIhdr le raw
      = { width := be32 (raw.getD 0 0) (raw.getD 1 0) (raw.getD 2 0) (raw.getD 3 0)
          height := be32 (raw.getD 4 0) (raw.getD 5 0) (raw.getD 6 0) (raw.getD 7 0)
          bitDepth := raw.getD 8 0
          colorType := raw.getD 9 0
          compression := raw.getD 10 0
          filter := raw.getD 11 0
          interlace := raw.getD 12 0 } := by
  simp [decodeIhdr, ntohl_loadU32]

theorem applyAll_hdr_last (le : Bool) (pre post : List Chunk) (last : Chunk) (png : PngInfo)
    (hlast : last.tag = tagIHDR) (hpost : ∀ c ∈ post, c.tag ≠ tagIHDR) :
    (applyAll le (pre ++ ([last] ++ post)) png).hdr = some (decodeIhdr le last.payload) := by
  rw [applyAll_append, applyAll_append, applyAll_hdr le post _ hpost]
  simp [applyAll, Chunk.apply, hlast]

theorem tagTEXT_ne_tagIHDR : tagTEXT ≠ tagIHDR := by simp [tagTEXT, tagIHDR]

theorem apply_textChunks (le : Bool) (c : Chunk) (png : PngInfo) :
    (c.apply le png).textChunks
      = png.textChunks ++ (if c.tag = tagTEXT then [c.textRecord] else []) := by
  unfold Chunk.apply
  by_cases h1 : c.tag = tagIHDR
  · have h2 : ¬ c.tag = tagTEXT := fun h => tagTEXT_ne_tagIHDR (h.symm.trans h1)
    simp [h1, h2, tagTEXT_ne_tagIHDR.symm]
  · by_cases h2 : c.tag = tagTEXT
    · simp [h1, h2, Chunk.textRecord, tagTEXT_ne_tagIHDR]
    · simp [h1, h2]

theorem applyAll_textChunks (le : Bool) : ∀ (cs : List Chunk) (png : PngInfo),
    (applyAll le cs png).textChunks
      = png.textChunks ++ (cs.filter (fun c => decide (c.tag = tagTEXT))).map Chunk.textRecord
  | [], png => by simp [applyAll]
  | c :: cs, png => by
    rw [applyAll, applyAll_textChunks le cs, apply_textChunks]
    by_cases h : c.tag = tagTEXT
    · simp [h, List.filter_cons]
    · simp [h, List.filter_cons]

theorem apply_sameButTrailer (le : Bool) (c d : Chunk) (h : c.SameButTrailer d)
    (png : PngInfo) : c.apply le png = d.apply le png := by
  obtain ⟨hh, hp⟩ := h
  have ht : c.tag = d.tag := by
    simp only [Chunk.header, List.cons.injEq, and_true] at hh
    simp [Chunk.tag, hh]
  simp [Chunk.apply, ht, hp]

theorem complete_sameButTrailer (c d : Chunk) (h : c.SameButTrailer d) (hc : c.Complete) :
    d.Complete := by
  obtain ⟨hh, hp⟩ := h
  simp only [Chunk.header, List.cons.injEq, and_true] at hh
  have ht : c.tag = d.tag := by simp [Chunk.tag, hh]
  have hl : c.length = d.length := by simp [Chunk.length, hh]
  unfold Chunk.Complete at hc ⊢
  rw [← ht, ← hl, ← hp]
  exact hc

theorem forall₂_sameButTrailer (le : Bool) : ∀ (cs ds : List Chunk),
    List.Forall₂ Chunk.SameButTrailer cs ds → (∀ c ∈ cs, c.Complete) →
    (∀ d ∈ ds, d.Complete) ∧ (wire cs).length = (wire ds).length
      ∧ ∀ png, applyAll le cs png = applyAll le ds png
  | [], [], _, _ => by simp [wire, applyAll]
  | c :: cs, d :: ds, h, hc => by
    rcases List.forall₂_cons.1 h with ⟨h1, h2⟩
    have ih := forall₂_sameButTrailer le cs ds h2 (fun x hx => hc x (List.mem_cons_of_mem _ hx))
    have hcc := hc c (List.mem_cons_self _ _)
    refine ⟨?_, ?_, ?_⟩
    · intro x hx
      rcases List.mem_cons.1 hx with e | e
      · rw [e]; exact complete_sameButTrailer c d h1 hcc
      · exact ih.1 x e
    · have hb : c.bytes.length = d.bytes.length := by
        simp [Chunk.bytes, Chunk.header, h1.2]
      simp [wire, hb, ih.2.1]
    · intro png
      simp only [applyAll]
      rw [apply_sameButTrailer le c d h1, ih.2.2]

/-! ## Keyword, separator, value -/

theorem strlen_split : ∀ (kw val : List Byte), (0 : Byte) ∉ kw →
    strlen (kw ++ 0 :: val) = some kw.length
  | [], val, _ => by simp [strlen]
  | b :: kw, val, h => by
    have hb : b ≠ 0 := fun e => h (by simp [e])
    have hk : (0 : Byte) ∉ kw := fun e => h (List.mem_cons_of_mem _ e)
    simp [strlen, hb, strlen_split kw val hk]

theorem cstr_split (kw val : List Byte) (h : (0 : Byte) ∉ kw) : cstr (kw ++ 0 :: val) = kw := by
  have hp : ∀ a ∈ kw, (fun x : Byte => decide (x ≠ 0)) a = true := by
    intro a ha
    have : a ≠ 0 := fun e => h (e ▸ ha)
    simpa using this
  unfold cstr
  rw [List.takeWhile_append_of_pos hp]
  simp

theorem subSize_of_le (a b : Nat) (hb : b ≤ a) (ha : a < 2 ^ 64) : subSize a b = a - b := by
  unfold subSize
  have h1 : b % 2 ^ 64 = b := Nat.mod_eq_of_lt (by omega)
  rw [h1]
  omega

theorem subSize_split (kw val : List Byte) (hL : (kw ++ 0 :: val).length < 2 ^ 32) :
    subSize (subSize (kw ++ 0 :: val).length kw.length) 1 = val.length := by
  have hlen : (kw ++ 0 :: val).length = kw.length + (val.length + 1) := by simp
  have hL2 : kw.length + (val.length + 1) < 2 ^ 32 := hlen ▸ hL
  rw [hlen]
  have h1 : subSize (kw.length + (val.length + 1)) kw.length = val.length + 1 := by
    rw [subSize_of_le _ _ (by omega) (by omega)]
    omega
  rw [h1, subSize_of_le _ _ (by omega) (by omega)]
  omega

theorem strndup_split (kw val : List Byte) (hL : (kw ++ 0 :: val).length < 2 ^ 32) :
    strndup ((kw ++ 0 :: val).drop (kw.length + 1))
        (subSize (subSize (kw ++ 0 :: val).length kw.length) 1)
      = val.takeWhile (· ≠ 0) := by
  have hd : (kw ++ 0 :: val).drop (kw.length + 1) = val := by
    rw [List.drop_append_eq_append_drop]
    simp
  rw [subSize_split kw val hL, hd, strndup, List.take_of_length_le (Nat.le_refl _)]

theorem parseTEXT_split (kw val : List Byte) (png : PngInfo) (h0 : (0 : Byte) ∉ kw)
    (hcap : (kw ++ 0 :: val).length ≤ keywordCapacity) :
    parseTEXT (kw ++ 0 :: val) (kw ++ 0 :: val).length png
      = .done { png with
          textChunks := png.textChunks ++
            [{ keyword := kw ++ 0 :: val, text := val.takeWhile (· ≠ 0) }] } := by
  have hL : (kw ++ 0 :: val).length < 2 ^ 32 := by unfold keywordCapacity at hcap; omega
  have hs := strndup_split kw val hL
  unfold parseTEXT
  rw [strlen_split kw val h0]
  simp only [hs, Nat.not_lt.2 hcap, if_false, List.take_length]

theorem takeWhile_ne_zero_eq_self (val : List Byte) :
    val.takeWhile (· ≠ 0) = val ↔ (0 : Byte) ∉ val := by
  rw [List.takeWhile_eq_self_iff]
  constructor
  · intro h hm
    have := h 0 hm
    simp at this
  · intro h x hx
    have : x ≠ 0 := fun e => h (e ▸ hx)
    simpa using this

theorem parseTEXT_overflow_iff (data : List Byte) (png : PngInfo) (h0 : (0 : Byte) ∈ data) :
    parseTEXT data data.length png = .undefined .keywordOverflow
      ↔ keywordCapacity < data.length := by
  unfold parseTEXT
  rw [strlen_of_mem data h0]
  simp only
  by_cases h : keywordCapacity < data.length
  · simp [h]
  · simp [h]

theorem parse_text_overflow (le : Bool) (c : Chunk) (htag : c.tag = tagTEXT)
    (hlen : c.payload.length = c.length) (h0 : (0 : Byte) ∈ c.payload)
    (hbig : keywordCapacity < c.length) :
    parse le (pngHdr ++ c.bytes) = .undefined .keywordOverflow := by
  have hw : pngHdr ++ c.bytes = pngHdr ++ (wire [] ++ c.bytes) := by simp [wire]
  have hr : IStream.read ⟨c.bytes, false, false⟩ 8
      = (c.header, ⟨c.payload ++ [c.c0, c.c1, c.c2, c.c3], false, false⟩) :=
    read_append _ _ 8 rfl
  have ht : [c.t0, c.t1, c.t2, c.t3] = tagTEXT := htag
  have hlen2 : be32 c.l0 c.l1 c.l2 c.l3 = c.payload.length := hlen.symm
  have hp : parseTEXT c.payload c.payload.length (applyAll le [] { textChunks := [], hdr := none })
      = .undefined .keywordOverflow :=
    (parseTEXT_overflow_iff _ _ h0).2 (by rw [hlen]; exact hbig)
  have hs1 : strncmp tagIHDR tagTEXT 4 ≠ 0 :=
    fun h => tagTEXT_ne_tagIHDR ((strncmp_IHDR 0x74 0x45 0x58 0x74).1 h)
  have hs2 : strncmp tagTEXT tagTEXT 4 = 0 := (strncmp_TEXT 0x74 0x45 0x58 0x74).2 rfl
  have hb : chunkBody le c.header ⟨c.payload ++ [c.c0, c.c1, c.c2, c.c3], false, false⟩
      (applyAll le [] { textChunks := [], hdr := none }) = .undefined .keywordOverflow := by
    unfold chunkBody
    simp only [Chunk.header, List.getD_cons_zero, List.getD_cons_succ, ntohl_loadU32,
      List.drop_succ_cons, List.drop_zero, strncmp_IHDR, strncmp_TEXT, hlen2, ht,
      tagTEXT_ne_tagIHDR, if_false, if_true, loadTEXT, read_append c.payload _ _ rfl,
      IStream.fail, hp]
    simp [hs1, hs2]
  rw [hw, parse_wire le [] _ (by simp), chunkLoop, hr]
  simp only [IStream.fail, hb]
  simp

/-! ## The fuel is never used up -/

theorem parseTEXT_ne_outOfFuel (data : List Byte) (n : Nat) (png : PngInfo) :
    parseTEXT data n png ≠ .outOfFuel := by
  unfold parseTEXT
  split
  · simp
  · simp only
    split <;> simp

theorem chunkBody_ne_outOfFuel (le : Bool) (raw : List Byte) (file : IStream) (png : PngInfo) :
    chunkBody le raw file png ≠ .outOfFuel := by
  intro h
  unfold chunkBody at h
  simp only at h
  split at h
  · split at h <;> simp at h
  · simp at h
  · simp at h
  · rename_i hh
    split at hh
    · unfold loadIHDR at hh
      split at hh
      · simp at hh
      · split at hh <;> simp at hh
    · split at hh
      · unfold loadTEXT at hh
        split at hh
        · simp at hh
        · split at hh
          · simp at hh
          · simp at hh
          · simp at hh
          · rename_i hp
            exact parseTEXT_ne_outOfFuel _ _ _ hp
      · split at hh <;> simp at hh

theorem chunkLoop_ne_outOfFuel (le : Bool) : ∀ (fuel : Nat) (file : IStream) (png : PngInfo),
    file.rest.length < fuel → chunkLoop le fuel file png ≠ .outOfFuel
  | 0, _, _, h => by omega
  | fuel + 1, file, png, h => by
    rw [chunkLoop]
    by_cases hf : ((file.read 8).2).fail = true
    · simp [hf]
    · have hf0 : ((file.read 8).2).fail = false := by simpa using hf
      have hlen := read_ok_rest file 8 hf0
      simp only [hf, if_false]
      cases hb : chunkBody le (file.read 8).1 (file.read 8).2 png with
      | done a =>
        obtain ⟨file1, png1⟩ := a
        have hle := chunkBody_rest_le le _ _ _ _ _ hb
        exact chunkLoop_ne_outOfFuel le fuel file1 png1 (by omega)
      | threw e => simp
      | undefined v => simp
      | outOfFuel => exact absurd hb (chunkBody_ne_outOfFuel le _ _ _)

theorem parse_ne_outOfFuel (le : Bool) (input : List Byte) : parse le input ≠ .outOfFuel := by
  by_cases h : 8 ≤ input.length
  · rw [parse_long le input h]
    split
    · exact chunkLoop_ne_outOfFuel le _ _ _ (by simp; omega)
    · simp
  · have hr : (IStream.open input).read 8 = (input, ⟨[], true, true⟩) :=
      read_short input 8 (by omega)
    simp [parse, hr, IStream.fail]

theorem chunkIterations_le (le : Bool) : ∀ (fuel : Nat) (file : IStream) (png : PngInfo),
    8 * chunkIterations le fuel file png ≤ file.rest.length
  | 0, _, _ => by simp [chunkIterations]
  | fuel + 1, file, png => by
    rw [chunkIterations]
    by_cases hf : ((file.read 8).2).fail = true
    · simp [hf]
    · have hf0 : ((file.read 8).2).fail = false := by simpa using hf
      have hlen := read_ok_rest file 8 hf0
      rw [if_neg hf]
      cases hb : chunkBody le (file.read 8).1 (file.read 8).2 png with
      | done a =>
        obtain ⟨file1, png1⟩ := a
        have hle := chunkBody_rest_le le _ _ _ _ _ hb
        have ih := chunkIterations_le le fuel file1 png1
        simp only
        omega
      | threw e => simp
      | undefined v => simp
      | outOfFuel => simp

/-! ## Every stream that is read to its end is made of complete chunks -/

theorem read_good (xs : List Byte) (n : Nat) :
    IStream.read ⟨xs, false, false⟩ n
      = if n ≤ xs.length then (xs.take n, ⟨xs.drop n, false, false⟩)
        else (xs, ⟨[], true, true⟩) := by
  simp [IStream.read, IStream.good]

theorem ignore_good (xs : List Byte) (n : Nat) :
    IStream.ignore ⟨xs, false, false⟩ n
      = if n ≤ xs.length then ⟨xs.drop n, false, false⟩ else ⟨[], true, false⟩ := by
  simp [IStream.ignore, IStream.good]

theorem loadIHDR_done (le : Bool) (rest : List Byte) (n : Nat) (png png1 : PngInfo)
    (file1 : IStream) (h : loadIHDR le ⟨rest, false, false⟩ n png = .done (file1, png1)) :
    n = 13 ∧ n ≤ rest.length ∧ file1 = ⟨rest.drop n, false, false⟩ := by
  unfold loadIHDR at h
  by_cases hn : n = 13
  · subst hn
    rw [read_good] at h
    by_cases hl : 13 ≤ rest.length
    · simp [hl, IStream.fail] at h
      exact ⟨rfl, hl, h.1.symm⟩
    · simp [hl, IStream.fail] at h
  · simp [hn] at h

theorem parseTEXT_done (data : List Byte) (n : Nat) (png png1 : PngInfo)
    (h : parseTEXT data n png = .done png1) : (0 : Byte) ∈ data ∧ n ≤ keywordCapacity := by
  constructor
  · by_contra hm
    unfold parseTEXT at h
    rw [strlen_of_not_mem data hm] at h
    simp at h
  · by_contra hn
    unfold parseTEXT at h
    split at h
    · simp at h
    · simp only at h
      rw [if_pos (by omega)] at h
      simp at h

theorem loadTEXT_done (rest : List Byte) (n : Nat) (png png1 : PngInfo) (file1 : IStream)
    (h : loadTEXT ⟨rest, false, false⟩ n png = .done (file1, png1)) :
    n ≤ rest.length ∧ file1 = ⟨rest.drop n, false, false⟩
      ∧ (0 : Byte) ∈ rest.take n ∧ n ≤ keywordCapacity := by
  unfold loadTEXT at h
  rw [read_good] at h
  by_cases hl : n ≤ rest.length
  · simp only [hl, if_true, IStream.fail, Bool.false_eq_true, if_false] at h
    split at h
    · rename_i p hp
      simp only [Outcome.done.injEq, Prod.mk.injEq] at h
      have := parseTEXT_done _ _ _ _ hp
      exact ⟨hl, h.1.symm, this.1, this.2⟩
    · simp at h
    · simp at h
    · simp at h
  · simp [hl, IStream.fail] at h

theorem chunkBody_done_shape (le : Bool) (l0 l1 l2 l3 t0 t1 t2 t3 : Byte) (rest : List Byte)
    (png png1 : PngInfo) (file1 : IStream)
    (h : chunkBody le [l0, l1, l2, l3, t0, t1, t2, t3] ⟨rest, false, false⟩ png
      = .done (file1, png1)) :
    be32 l0 l1 l2 l3 ≤ rest.length
      ∧ (∀ c0 c1 c2 c3 : Byte,
          (Chunk.mk l0 l1 l2 l3 t0 t1 t2 t3 (rest.take (be32 l0 l1 l2 l3)) c0 c1 c2 c3).Complete)
      ∧ file1 = IStream.ignore ⟨rest.drop (be32 l0 l1 l2 l3), false, false⟩ 4 := by
  unfold chunkBody at h
  simp only [List.getD_cons_zero, List.getD_cons_succ, ntohl_loadU32, List.drop_succ_cons,
    List.drop_zero, strncmp_IHDR, strncmp_TEXT] at h
  split at h
  · rename_i f2 p2 hh
    have hf1 : file1 = f2.ignore 4 := by
      split at h
      · simp at h
      · simp only [Outcome.done.injEq, Prod.mk.injEq] at h
        exact h.1.symm
    by_cases h1 : [t0, t1, t2, t3] = tagIHDR
    · rw [if_pos h1] at hh
      obtain ⟨h13, hl, hf2⟩ := loadIHDR_done le rest _ png p2 f2 hh
      refine ⟨hl, ?_, by rw [hf1, hf2]⟩
      intro c0 c1 c2 c3
      refine ⟨by simp [Chunk.length, hl], fun _ => h13, fun ht => ?_⟩
      exact absurd (ht.symm.trans h1) tagTEXT_ne_tagIHDR
    · rw [if_neg h1] at hh
      by_cases h2 : [t0, t1, t2, t3] = tagTEXT
      · rw [if_pos h2] at hh
        obtain ⟨hl, hf2, hm, hcap⟩ := loadTEXT_done rest _ png p2 f2 hh
        refine ⟨hl, ?_, by rw [hf1, hf2]⟩
        intro c0 c1 c2 c3
        exact ⟨by simp [Chunk.length, hl], fun ht => absurd ht h1, fun _ => ⟨hcap, hm⟩⟩
      · rw [if_neg h2, ignore_good] at hh
        by_cases hl : be32 l0 l1 l2 l3 ≤ rest.length
        · simp only [hl, if_true, IStream.fail, Bool.false_eq_true, if_false,
            Outcome.done.injEq, Prod.mk.injEq] at hh
          refine ⟨hl, ?_, by rw [hf1, ← hh.1]⟩
          intro c0 c1 c2 c3
          exact ⟨by simp [Chunk.length, hl], fun ht => absurd ht h1, fun ht => absurd ht h2⟩
        · simp only [hl, if_false, IStream.fail, Bool.false_eq_true,
            Outcome.done.injEq, Prod.mk.injEq] at hh
          rw [← hh.1] at h
          simp [IStream.ignore, IStream.good, IStream.fail] at h
  · simp at h
  · simp at h
  · simp at h

theorem exists_header : ∀ (rest : List Byte), 8 ≤ rest.length →
    ∃ (l0 l1 l2 l3 t0 t1 t2 t3 : Byte) (rest1 : List Byte),
      rest = l0 :: l1 :: l2 :: l3 :: t0 :: t1 :: t2 :: t3 :: rest1
  | l0 :: l1 :: l2 :: l3 :: t0 :: t1 :: t2 :: t3 :: rest1, _ =>
    ⟨l0, l1, l2, l3, t0, t1, t2, t3, rest1, rfl⟩
  | [], h => by simp at h
  | [_], h => by simp at h
  | [_, _], h => by simp at h
  | [_, _, _], h => by simp at h
  | [_, _, _, _], h => by simp at h
  | [_, _, _, _, _], h => by simp at h
  | [_, _, _, _, _, _], h => by simp at h
  | [_, _, _, _, _, _, _], h => by simp at h

theorem exists_trailer : ∀ (after : List Byte), 4 ≤ after.length →
    ∃ (c0 c1 c2 c3 : Byte) (rest2 : List Byte), after = c0 :: c1 :: c2 :: c3 :: rest2
  | c0 :: c1 :: c2 :: c3 :: rest2, _ => ⟨c0, c1, c2, c3, rest2, rfl⟩
  | [], h => by simp at h
  | [_], h => by simp at h
  | [_, _], h => by simp at h
  | [_, _, _], h => by simp at h

theorem exists_cut_trailer : ∀ (after : List Byte), after.length < 4 →
    ∃ (c0 c1 c2 c3 : Byte), after = [c0, c1, c2, c3].take (4 - (4 - after.length))
  | [], _ => ⟨0, 0, 0, 0, rfl⟩
  | [a], _ => ⟨a, 0, 0, 0, rfl⟩
  | [a, b], _ => ⟨a, b, 0, 0, rfl⟩
  | [a, b, c], _ => ⟨a, b, c, 0, rfl⟩
  | _ :: _ :: _ :: _ :: _, h => by
    simp only [List.length_cons] at h
    omega

theorem chunkLoop_done_shape (le : Bool) : ∀ (fuel : Nat) (rest : List Byte)
    (png doc : PngInfo), chunkLoop le fuel ⟨rest, false, false⟩ png = .done doc →
    ∃ (cs : List Chunk) (cut : Nat) (tail : List Byte),
      Accepted cs cut tail ∧ rest = wireCut cs cut ++ tail
  | 0, _, _, _, h => by simp [chunkLoop] at h
  | fuel + 1, rest, png, doc, h => by
    by_cases h8 : 8 ≤ rest.length
    · obtain ⟨l0, l1, l2, l3, t0, t1, t2, t3, rest1, rfl⟩ := exists_header rest h8
      have hr : IStream.read ⟨l0 :: l1 :: l2 :: l3 :: t0 :: t1 :: t2 :: t3 :: rest1, false, false⟩ 8
          = ([l0, l1, l2, l3, t0, t1, t2, t3], ⟨rest1, false, false⟩) :=
        read_append [l0, l1, l2, l3, t0, t1, t2, t3] rest1 8 rfl
      rw [chunkLoop, hr] at h
      simp only [IStream.fail, Bool.false_eq_true, if_false] at h
      cases hb : chunkBody le [l0, l1, l2, l3, t0, t1, t2, t3] ⟨rest1, false, false⟩ png with
      | done a =>
        obtain ⟨file1, png1⟩ := a
        rw [hb] at h
        simp only at h
        obtain ⟨hN, hcomp, hf1⟩ := chunkBody_done_shape le _ _ _ _ _ _ _ _ _ _ _ _ hb
        have hsplit : rest1 = rest1.take (be32 l0 l1 l2 l3) ++ rest1.drop (be32 l0 l1 l2 l3) :=
          (List.take_append_drop _ _).symm
        rw [ignore_good] at hf1
        by_cases h4 : 4 ≤ (rest1.drop (be32 l0 l1 l2 l3)).length
        · rw [if_pos h4] at hf1
          obtain ⟨c0, c1, c2, c3, rest2, hafter⟩ := exists_trailer _ h4
          rw [hafter] at hf1
          simp only [List.drop_succ_cons, List.drop_zero] at hf1
          rw [hf1] at h
          obtain ⟨cs1, cut1, tail1, hacc, hrest2⟩ := chunkLoop_done_shape le fuel rest2 png1 doc h
          have hc := hcomp c0 c1 c2 c3
          have hbytes : l0 :: l1 :: l2 :: l3 :: t0 :: t1 :: t2 :: t3 :: rest1
              = (Chunk.mk l0 l1 l2 l3 t0 t1 t2 t3 (rest1.take (be32 l0 l1 l2 l3))
                  c0 c1 c2 c3).bytes ++ rest2 := by
            conv_lhs => rw [hsplit, hafter]
            simp [Chunk.bytes, Chunk.header]
          obtain ⟨hcs1, hcut1, htail1, hz1⟩ := hacc
          cases cs1 with
          | nil =>
            refine ⟨[(Chunk.mk l0 l1 l2 l3 t0 t1 t2 t3 (rest1.take (be32 l0 l1 l2 l3)) c0 c1 c2 c3)], 0, tail1,
              ⟨?_, by omega, htail1, fun h => absurd rfl h⟩, ?_⟩
            · intro c hcm
              rw [List.mem_singleton.1 hcm]; exact hc
            · rw [hbytes, hrest2]
              simp [wireCut, Chunk.bytesCut, Chunk.bytes]
          | cons d ds =>
            refine ⟨(Chunk.mk l0 l1 l2 l3 t0 t1 t2 t3 (rest1.take (be32 l0 l1 l2 l3)) c0 c1 c2 c3) :: d :: ds, cut1, tail1,
              ⟨?_, hcut1, htail1, hz1⟩, ?_⟩
            · intro c hcm
              rcases List.mem_cons.1 hcm with e | e
              · rw [e]; exact hc
              · exact hcs1 c e
            · rw [hbytes, hrest2]
              simp [wireCut]
        · have h4b : (rest1.drop (be32 l0 l1 l2 l3)).length < 4 := by omega
          obtain ⟨c0, c1, c2, c3, hafter⟩ := exists_cut_trailer _ h4b
          have hc := hcomp c0 c1 c2 c3
          refine ⟨[(Chunk.mk l0 l1 l2 l3 t0 t1 t2 t3 (rest1.take (be32 l0 l1 l2 l3)) c0 c1 c2 c3)],
            4 - (rest1.drop (be32 l0 l1 l2 l3)).length, [],
            ⟨?_, by omega, by simp, fun _ => rfl⟩, ?_⟩
          · intro c hcm
            rw [List.mem_singleton.1 hcm]; exact hc
          · conv_lhs => rw [hsplit, hafter]
            simp [wireCut, Chunk.bytesCut, Chunk.header]
      | threw e => rw [hb] at h; simp at h
      | undefined v => rw [hb] at h; simp at h
      | outOfFuel => rw [hb] at h; simp at h
    · exact ⟨[], 0, rest, ⟨by simp, by omega, by omega, fun h => absurd rfl h⟩, by simp [wireCut]⟩

theorem parse_done_shape (le : Bool) (input : List Byte) (doc : PngInfo)
    (h : parse le input = .done doc) :
    ∃ (cs : List Chunk) (cut : Nat) (tail : List Byte),
      Accepted cs cut tail ∧ input = pngHdr ++ (wireCut cs cut ++ tail)
        ∧ doc = applyAll le cs emptyDoc := by
  by_cases h8 : 8 ≤ input.length
  · rw [parse_long le input h8] at h
    by_cases hs : input.take 8 = pngHdr
    · rw [if_pos hs] at h
      obtain ⟨cs, cut, tail, hacc, hrest⟩ := chunkLoop_done_shape le _ _ _ _ h
      have hin : input = pngHdr ++ (wireCut cs cut ++ tail) := by
        rw [← hrest, ← hs]; exact (List.take_append_drop 8 input).symm
      refine ⟨cs, cut, tail, hacc, hin, ?_⟩
      have hp := parse_accepted le cs cut tail hacc
      rw [← hin, parse_long le input h8, if_pos hs, h] at hp
      exact Outcome.done.inj hp
    · rw [if_neg hs] at h
      simp at h
  · have hr : (IStream.open input).read 8 = (input, ⟨[], true, true⟩) :=
      read_short input 8 (by omega)
    simp [parse, hr, IStream.fail] at h

/-! ## What holds while the payload fits the keyword field -/

/-- Signature, complete chunks other than IHDR, one IHDR chunk of declared
length 13, complete chunks other than IHDR: the constructor returns, and `hdr`
holds the big-endian values of payload bytes 0-3 and 4-7 as width and height and
payload bytes 8 to 12 as bitDepth, colorType, compression, filter, interlace. -/
theorem ihdr_fields_among_complete_chunks (le : Bool) (pre post : List Chunk)
    (p0 p1 p2 p3 p4 p5 p6 p7 p8 p9 p10 p11 p12 k0 k1 k2 k3 : Byte)
    (hpre : ∀ c ∈ pre, c.Complete ∧ c.tag ≠ tagIHDR)
    (hpost : ∀ c ∈ post, c.Complete ∧ c.tag ≠ tagIHDR) :
    ∃ doc : PngInfo,
      parse le (pngHdr ++ (wire pre ++ (([0, 0, 0, 13] ++ (tagIHDR ++
          ([p0, p1, p2, p3, p4, p5, p6, p7, p8, p9, p10, p11, p12] ++ [k0, k1, k2, k3])))
          ++ wire post))) = .done doc
      ∧ doc.hdr = some { width := be32 p0 p1 p2 p3, height := be32 p4 p5 p6 p7, bitDepth := p8,
                         colorType := p9, compression := p10, filter := p11, interlace := p12 } := by
  let ih : Chunk :=
    { l0 := 0, l1 := 0, l2 := 0, l3 := 13, t0 := 0x49, t1 := 0x48, t2 := 0x44, t3 := 0x52,
      payload := [p0, p1, p2, p3, p4, p5, p6, p7, p8, p9, p10, p11, p12],
      c0 := k0, c1 := k1, c2 := k2, c3 := k3 }
  have hih : ih.Complete := by
    have h13 : be32 0 0 0 13 = 13 := by decide
    refine ⟨by simp [ih, Chunk.length, h13], fun _ => by simp [ih, Chunk.length, h13], ?_⟩
    intro h
    simp [ih, Chunk.tag, tagTEXT] at h
  have hall : ∀ c ∈ pre ++ ([ih] ++ post), c.Complete := by
    intro c hc
    simp only [List.mem_append, List.mem_singleton] at hc
    rcases hc with h | h | h
    · exact (hpre c h).1
    · rw [h]; exact hih
    · exact (hpost c h).1
  have hw : wire pre ++ (([0, 0, 0, 13] ++ (tagIHDR ++
          ([p0, p1, p2, p3, p4, p5, p6, p7, p8, p9, p10, p11, p12] ++ [k0, k1, k2, k3])))
          ++ wire post) = wire (pre ++ ([ih] ++ post)) ++ [] := by
    simp [wire_append, wire, Chunk.bytes, Chunk.header, ih, tagIHDR]
  refine ⟨applyAll le (pre ++ ([ih] ++ post)) { textChunks := [], hdr := none }, ?_, ?_⟩
  · rw [hw, parse_wire le _ [] hall]
    exact chunkLoop_short le 0 [] _ (by simp)
  · rw [applyAll_append, applyAll_append, applyAll_hdr le post _ (fun c hc => (hpost c hc).2)]
    simp [applyAll, Chunk.apply, ih, Chunk.tag, tagIHDR, decodeIhdr, ntohl_loadU32]

/-- For a tEXt payload made of a keyword `kw` without NUL, a NUL and the
bytes `val` (first NUL at index `k = kw.length`, `L` bytes in all): `strlen`
finds `k`; `L - k - 1` in `size_t` arithmetic is the number of bytes of `val`, so
it does not wrap; the string that `strndup` returns for `tc.text` is `val` up to
its first NUL or its end, of at most `L - k - 1` bytes, and empty when the
separator is the last payload byte; when the payload fits the keyword field,
that string is the text of the record `parseTEXT` appends. -/
theorem text_is_strndup_of_rest (kw val : List Byte) (png : PngInfo)
    (h0 : (0 : Byte) ∉ kw) (hL : (kw ++ 0 :: val).length < 2 ^ 32) :
    strlen (kw ++ 0 :: val) = some kw.length
      ∧ kw.length + 1 ≤ (kw ++ 0 :: val).length
      ∧ subSize (subSize (kw ++ 0 :: val).length kw.length) 1
          = (kw ++ 0 :: val).length - kw.length - 1
      ∧ strndup ((kw ++ 0 :: val).drop (kw.length + 1))
            (subSize (subSize (kw ++ 0 :: val).length kw.length) 1)
          = val.takeWhile (· ≠ 0)
      ∧ (val.takeWhile (· ≠ 0)).length ≤ (kw ++ 0 :: val).length - kw.length - 1
      ∧ (val = [] → strndup ((kw ++ 0 :: val).drop (kw.length + 1))
            (subSize (subSize (kw ++ 0 :: val).length kw.length) 1) = [])
      ∧ ((kw ++ 0 :: val).length ≤ 80 →
          parseTEXT (kw ++ 0 :: val) (kw ++ 0 :: val).length png
            = .done { png with
                textChunks := png.textChunks ++
                  [{ keyword := kw ++ 0 :: val, text := val.takeWhile (· ≠ 0) }] }) := by
  have hlen : (kw ++ 0 :: val).length = kw.length + (val.length + 1) := by simp
  have hs := strndup_split kw val hL
  have hsub := subSize_split kw val hL
  have htl : (val.takeWhile (· ≠ 0)).length ≤ val.length :=
    (List.takeWhile_sublist _).length_le
  refine ⟨strlen_split kw val h0, by omega, by rw [hsub]; omega, hs, by omega, ?_, ?_⟩
  · intro hv
    rw [hs, hv]
    rfl
  · intro hcap
    exact parseTEXT_split kw val png h0 hcap

/-! ## The claims -/

/-- C1 (the code at a failing input).  The example of the specification is read
as claimed, keyword "title" and value "Hello World"; with keyword "k" and a
value of 79 non-NUL bytes (81 payload bytes) `memcpy` leaves `keyword[80]` and no
text record is produced. -/
theorem c1_long_value_overflows_keyword :
    parse true (pngHdr ++ titleChunk.bytes)
        = .done { textChunks := [{ keyword := titleChunk.payload,
                                    text := [0x48, 0x65, 0x6C, 0x6C, 0x6F, 0x20, 0x57, 0x6F, 0x72,
                                      0x6C, 0x64] }],
                  hdr := none }
      ∧ cstr titleChunk.payload = [0x74, 0x69, 0x74, 0x6C, 0x65]
      ∧ parse true (pngHdr ++ longValueChunk.bytes) = .undefined .keywordOverflow
      ∧ parse false (pngHdr ++ longValueChunk.bytes) = .undefined .keywordOverflow := by
  decide

/-- C2 (the code at a failing input).  For a tEXt chunk whose first NUL is at
index 80 (a keyword of 80 bytes) no error is thrown: `parseTEXT` copies all 82
payload bytes into `keyword[80]`, which leaves the field. -/
theorem c2_long_keyword_not_rejected :
    strlen longKeywordChunk.payload = some 80
      ∧ parse true (pngHdr ++ longKeywordChunk.bytes) = .undefined .keywordOverflow
      ∧ parse false (pngHdr ++ longKeywordChunk.bytes) = .undefined .keywordOverflow := by
  decide

/-- C3 (the code at failing inputs).  For a tEXt payload without NUL, here "abc"
and the empty payload of a chunk of length 0, no error is thrown: `strlen` scans
past the end of the array that holds the payload. -/
theorem c3_no_separator_not_rejected :
    parse true (pngHdr ++ noNulChunk.bytes) = .undefined .strlenPastBuffer
      ∧ parse false (pngHdr ++ noNulChunk.bytes) = .undefined .strlenPastBuffer
      ∧ parse true (pngHdr ++ emptyTextChunk.bytes) = .undefined .strlenPastBuffer
      ∧ parse false (pngHdr ++ emptyTextChunk.bytes) = .undefined .strlenPastBuffer := by
  decide

/-- C5.  After complete chunks, a chunk header of type IHDR whose declared length
is not 13 makes the constructor throw "Bad IHDR chunk size", whatever bytes
follow the header, none included; `loadIHDR` throws it for every state of the
file, so before any payload byte is read. -/
theorem c5_bad_ihdr_size (le : Bool) (pre : List Chunk) (l0 l1 l2 l3 : Byte)
    (rest : List Byte) (hpre : ∀ c ∈ pre, c.Complete) (hlen : be32 l0 l1 l2 l3 ≠ 13) :
    parse le (pngHdr ++ (wire pre ++ ([l0, l1, l2, l3] ++ tagIHDR ++ rest)))
        = .threw .badIhdrSize
      ∧ ∀ (file : IStream) (png : PngInfo),
          loadIHDR le file (be32 l0 l1 l2 l3) png = .threw .badIhdrSize := by
  have hload : ∀ (file : IStream) (png : PngInfo),
      loadIHDR le file (be32 l0 l1 l2 l3) png = .threw .badIhdrSize := by
    intro file png
    simp [loadIHDR, hlen]
  refine ⟨?_, hload⟩
  have hr : IStream.read ⟨[l0, l1, l2, l3] ++ tagIHDR ++ rest, false, false⟩ 8
      = ([l0, l1, l2, l3] ++ tagIHDR, ⟨rest, false, false⟩) :=
    read_append _ _ 8 rfl
  rw [parse_wire le pre _ hpre, chunkLoop, hr]
  have hi : strncmp tagIHDR tagIHDR 4 = 0 := (strncmp_IHDR _ _ _ _).2 rfl
  have hb : chunkBody le ([l0, l1, l2, l3] ++ tagIHDR) ⟨rest, false, false⟩
      (applyAll le pre { textChunks := [], hdr := none }) = .threw .badIhdrSize := by
    unfold chunkBody
    simp only [List.cons_append, List.nil_append, List.getD_cons_zero, List.getD_cons_succ,
      ntohl_loadU32, List.drop_succ_cons, List.drop_zero, hi, if_true, hload]
  simp only [IStream.fail, hb]
  simp

/-- C5 at an example: an IHDR header declaring 12 bytes at the end of the file,
after one tEXt chunk. -/
theorem c5_bad_ihdr_size_witness :
    (∀ c ∈ [titleChunk], c.Complete) ∧ be32 0 0 0 12 ≠ 13
      ∧ (parse false (pngHdr ++ (wire [titleChunk] ++ ([0, 0, 0, 12] ++ tagIHDR ++ [])))
          = .threw .badIhdrSize
        ∧ ∀ (file : IStream) (png : PngInfo),
            loadIHDR false file (be32 0 0 0 12) png = .threw .badIhdrSize) :=
  ⟨by decide, by decide,
    c5_bad_ihdr_size false [titleChunk] 0 0 0 12 [] (by decide) (by decide)⟩

/-- C6.  On an input of at least 8 bytes the constructor throws "PNG header does
not match" exactly when the first 8 bytes are not the signature, NUL bytes among
them or not. -/
theorem c6_bad_signature_iff (le : Bool) (input : List Byte) (h : 8 ≤ input.length) :
    parse le input = .threw .pngHeaderMismatch ↔ input.take 8 ≠ pngHdr := by
  rw [parse_long le input h]
  by_cases he : input.take 8 = pngHdr
  · simp only [he, if_true, ne_eq, not_true_eq_false, iff_false]
    intro hc
    have := chunkLoop_threw le _ _ _ _ hc
    simp at this
  · simp [he]

/-- C6 at an example: the signature with its last two bytes replaced by NUL. -/
theorem c6_bad_signature_iff_witness :
    8 ≤ ([0x89, 0x50, 0x4E, 0x47, 0x0D, 0x0A, 0, 0, 1, 2] : List Byte).length
      ∧ (parse true [0x89, 0x50, 0x4E, 0x47, 0x0D, 0x0A, 0, 0, 1, 2] = .threw .pngHeaderMismatch
          ↔ ([0x89, 0x50, 0x4E, 0x47, 0x0D, 0x0A, 0, 0, 1, 2] : List Byte).take 8 ≠ pngHdr) :=
  ⟨by decide, c6_bad_signature_iff true [0x89, 0x50, 0x4E, 0x47, 0x0D, 0x0A, 0, 0, 1, 2]
    (by decide)⟩

/-- C7.  On an input of fewer than 8 bytes the constructor throws "Can't read PNG
header": neither the signature comparison nor the chunk loop is reached. -/
theorem c7_short_input (le : Bool) (input : List Byte) (h : input.length < 8) :
    parse le input = .threw .cantReadPngHeader := by
  have hr : (IStream.open input).read 8 = (input, ⟨[], true, true⟩) := read_short input 8 h
  simp [parse, hr, IStream.fail]

/-- C7 at an example: the first 7 bytes of the signature. -/
theorem c7_short_input_witness :
    ([0x89, 0x50, 0x4E, 0x47, 0x0D, 0x0A, 0x1A] : List Byte).length < 8
      ∧ parse true [0x89, 0x50, 0x4E, 0x47, 0x0D, 0x0A, 0x1A] = .threw .cantReadPngHeader :=
  ⟨by decide, c7_short_input true [0x89, 0x50, 0x4E, 0x47, 0x0D, 0x0A, 0x1A] (by decide)⟩

/-- C8.  A chunk whose type is neither "IHDR" nor "tEXt", with its declared
number of payload bytes and 4 trailing bytes present: the loop body leaves the
document as it was and the stream, still good, at the byte after the trailing
field (payload and 4 bytes consumed); after complete chunks, the constructor
ends as it does on the stream without that chunk. -/
theorem c8_unknown_chunk_skipped (le : Bool) (pre : List Chunk) (c : Chunk) (rest : List Byte)
    (hpre : ∀ d ∈ pre, d.Complete) (hlen : c.payload.length = c.length)
    (h1 : c.tag ≠ tagIHDR) (h2 : c.tag ≠ tagTEXT) :
    (∀ png : PngInfo,
        chunkBody le c.header ⟨c.payload ++ ([c.c0, c.c1, c.c2, c.c3] ++ rest), false, false⟩ png
          = .done (⟨rest, false, false⟩, png))
      ∧ parse le (pngHdr ++ (wire pre ++ (c.bytes ++ rest)))
          = parse le (pngHdr ++ (wire pre ++ rest)) := by
  have hc : c.Complete := ⟨hlen, fun h => absurd h h1, fun h => absurd h h2⟩
  have ha : ∀ png : PngInfo, c.apply le png = png := by
    intro png
    simp [Chunk.apply, h1, h2]
  constructor
  · intro png
    rw [chunkBody_complete le c hc rest png, ha]
  · have hall : ∀ d ∈ pre ++ [c], d.Complete := by
      intro d hd
      rcases List.mem_append.1 hd with h | h
      · exact hpre d h
      · rw [List.mem_singleton.1 h]; exact hc
    have hw : wire pre ++ (c.bytes ++ rest) = wire (pre ++ [c]) ++ rest := by
      simp [wire_append, wire]
    rw [hw, parse_wire le _ rest hall, parse_wire le pre rest hpre, applyAll_append]
    simp [applyAll, ha]

/-- C8 at the example of the specification: type "abcd", 10 payload bytes, after
an IHDR chunk and before a tEXt chunk. -/
theorem c8_unknown_chunk_skipped_witness :
    (∀ d ∈ [ihdrChunk], d.Complete) ∧ abcdChunk.payload.length = abcdChunk.length
      ∧ abcdChunk.tag ≠ tagIHDR ∧ abcdChunk.tag ≠ tagTEXT
      ∧ ((∀ png : PngInfo,
            chunkBody true abcdChunk.header
              ⟨abcdChunk.payload ++ ([abcdChunk.c0, abcdChunk.c1, abcdChunk.c2, abcdChunk.c3]
                ++ titleChunk.bytes), false, false⟩ png
              = .done (⟨titleChunk.bytes, false, false⟩, png))
        ∧ parse true (pngHdr ++ (wire [ihdrChunk] ++ (abcdChunk.bytes ++ titleChunk.bytes)))
            = parse true (pngHdr ++ (wire [ihdrChunk] ++ titleChunk.bytes))) :=
  ⟨by decide, by decide, by decide, by decide,
    c8_unknown_chunk_skipped true [ihdrChunk] abcdChunk titleChunk.bytes
      (by decide) (by decide) (by decide) (by decide)⟩

/-- C9 (the code at failing inputs).  With the header and the whole payload of a
chunk present and fewer than 4 bytes after it, `file.ignore(4)` sets `eofbit`
only, nothing is thrown and the constructor returns the document: for an IHDR
chunk followed by 2 bytes, a tEXt chunk followed by none, an unknown chunk
followed by 1 byte. -/
theorem c9_short_trailer_not_rejected :
    parse true (pngHdr ++ (ihdrChunk.header ++ (ihdrChunk.payload ++ [0xDE, 0xAD])))
        = .done { textChunks := [],
                  hdr := some { width := 256, height := 512, bitDepth := 8, colorType := 6,
                                compression := 0, filter := 0, interlace := 0 } }
      ∧ parse true (pngHdr ++ (titleChunk.header ++ titleChunk.payload))
        = .done { textChunks := [{ keyword := titleChunk.payload,
                                    text := [0x48, 0x65, 0x6C, 0x6C, 0x6F, 0x20, 0x57, 0x6F, 0x72,
                                      0x6C, 0x64] }],
                  hdr := none }
      ∧ parse true (pngHdr ++ (abcdChunk.header ++ (abcdChunk.payload ++ [0x11])))
        = .done emptyDoc
      ∧ IStream.ignore ⟨[0xDE, 0xAD], false, false⟩ 4 = ⟨[], true, false⟩ := by
  decide

/-- C10 (counterexample).  The signature, one IHDR chunk and three more bytes:
the constructor returns the document instead of throwing. -/
theorem c10_partial_header_accepted :
    parse true (pngHdr ++ (wire [ihdrChunk] ++ [0, 0, 0]))
        = .done { textChunks := [],
                  hdr := some { width := 256, height := 512, bitDepth := 8, colorType := 6,
                                compression := 0, filter := 0, interlace := 0 } }
      ∧ ¬ ∃ e, parse true (pngHdr ++ (wire [ihdrChunk] ++ [0, 0, 0])) = .threw e := by
  have h : parse true (pngHdr ++ (wire [ihdrChunk] ++ [0, 0, 0]))
        = .done { textChunks := [],
                  hdr := some { width := 256, height := 512, bitDepth := 8, colorType := 6,
                                compression := 0, filter := 0, interlace := 0 } } := by
    decide
  refine ⟨h, ?_⟩
  rintro ⟨e, he⟩
  rw [h] at he
  exact Outcome.noConfusion he

/-- C10 (amended).  The signature, complete chunks and then 0 to 7 further
bytes: the constructor returns the document of the complete chunks, the same as
without those bytes; a partial chunk header ends the loop like the end of the
file. -/
theorem c10_partial_header_is_end (le : Bool) (cs : List Chunk) (tail : List Byte)
    (hcs : ∀ c ∈ cs, c.Complete) (ht : tail.length < 8) :
    parse le (pngHdr ++ (wire cs ++ tail)) = .done (applyAll le cs emptyDoc)
      ∧ parse le (pngHdr ++ (wire cs ++ tail)) = parse le (pngHdr ++ (wire cs ++ [])) := by
  have h1 : parse le (pngHdr ++ (wire cs ++ tail)) = .done (applyAll le cs emptyDoc) := by
    rw [parse_wire le cs tail hcs]
    exact chunkLoop_short le _ tail _ ht
  have h2 : parse le (pngHdr ++ (wire cs ++ [])) = .done (applyAll le cs emptyDoc) := by
    rw [parse_wire le cs [] hcs]
    exact chunkLoop_short le _ [] _ (by simp)
  exact ⟨h1, h1.trans h2.symm⟩

/-- C10 (amended) at an example: an IHDR and a tEXt chunk, then 7 bytes. -/
theorem c10_partial_header_is_end_witness :
    (∀ c ∈ [ihdrChunk, titleChunk], c.Complete)
      ∧ ([0, 0, 0, 0, 0x49, 0x45, 0x4E] : List Byte).length < 8
      ∧ (parse false (pngHdr ++ (wire [ihdrChunk, titleChunk] ++ [0, 0, 0, 0, 0x49, 0x45, 0x4E]))
          = .done (applyAll false [ihdrChunk, titleChunk] emptyDoc)
        ∧ parse false (pngHdr ++ (wire [ihdrChunk, titleChunk] ++ [0, 0, 0, 0, 0x49, 0x45, 0x4E]))
          = parse false (pngHdr ++ (wire [ihdrChunk, titleChunk] ++ []))) :=
  ⟨by decide, by decide,
    c10_partial_header_is_end false [ihdrChunk, titleChunk] [0, 0, 0, 0, 0x49, 0x45, 0x4E]
      (by decide) (by decide)⟩

/-- C11.  After complete chunks, a chunk header whose declared length exceeds
the number of bytes left in the file (13 for IHDR): the constructor throws,
"Can't read IHDR" for an IHDR chunk, "Can't read tEXt chunk" for a tEXt chunk,
"Can't read chunk checksum" for any other type, and returns no document. -/
theorem c11_truncated_payload (le : Bool) (pre : List Chunk)
    (l0 l1 l2 l3 t0 t1 t2 t3 : Byte) (rest : List Byte)
    (hpre : ∀ c ∈ pre, c.Complete) (hshort : rest.length < be32 l0 l1 l2 l3)
    (hihdr : [t0, t1, t2, t3] = tagIHDR → be32 l0 l1 l2 l3 = 13) :
    parse le (pngHdr ++ (wire pre ++ ([l0, l1, l2, l3, t0, t1, t2, t3] ++ rest)))
      = .threw (if [t0, t1, t2, t3] = tagIHDR then .cantReadIhdr
                else if [t0, t1, t2, t3] = tagTEXT then .cantReadText
                else .cantReadChecksum) := by
  have hr : IStream.read ⟨[l0, l1, l2, l3, t0, t1, t2, t3] ++ rest, false, false⟩ 8
      = ([l0, l1, l2, l3, t0, t1, t2, t3], ⟨rest, false, false⟩) :=
    read_append _ _ 8 rfl
  rw [parse_wire le pre _ hpre, chunkLoop, hr]
  have hb : chunkBody le [l0, l1, l2, l3, t0, t1, t2, t3] ⟨rest, false, false⟩
      (applyAll le pre { textChunks := [], hdr := none })
      = .threw (if [t0, t1, t2, t3] = tagIHDR then .cantReadIhdr
                else if [t0, t1, t2, t3] = tagTEXT then .cantReadText
                else .cantReadChecksum) := by
    unfold chunkBody
    simp only [List.getD_cons_zero, List.getD_cons_succ, ntohl_loadU32, List.drop_succ_cons,
      List.drop_zero, strncmp_IHDR, strncmp_TEXT]
    by_cases h1 : [t0, t1, t2, t3] = tagIHDR
    · have h13 := hihdr h1
      rw [h13] at hshort ⊢
      simp [h1, loadIHDR, read_short rest 13 hshort, IStream.fail]
    · by_cases h2 : [t0, t1, t2, t3] = tagTEXT
      · have hne : ¬ tagTEXT = tagIHDR := by simp [tagTEXT, tagIHDR]
        simp [h2, hne, loadTEXT, read_short rest _ hshort, IStream.fail]
      · simp only [h1, h2, if_false, ignore_short rest _ hshort, IStream.fail]
        simp [IStream.ignore, IStream.good]
  simp only [IStream.fail, hb]
  simp

/-- C11 at an example: after an IHDR chunk, the header of a chunk of type "abcd"
that declares 10 bytes, followed by 3 bytes. -/
theorem c11_truncated_payload_witness :
    (∀ c ∈ [ihdrChunk], c.Complete) ∧ ([1, 2, 3] : List Byte).length < be32 0 0 0 10
      ∧ (([0x61, 0x62, 0x63, 0x64] : List Byte) = tagIHDR → be32 0 0 0 10 = 13)
      ∧ parse true (pngHdr ++ (wire [ihdrChunk]
            ++ ([0, 0, 0, 10, 0x61, 0x62, 0x63, 0x64] ++ [1, 2, 3])))
          = .threw (if ([0x61, 0x62, 0x63, 0x64] : List Byte) = tagIHDR then .cantReadIhdr
                    else if ([0x61, 0x62, 0x63, 0x64] : List Byte) = tagTEXT then .cantReadText
                    else .cantReadChecksum) :=
  ⟨by decide, by decide, by decide,
    c11_truncated_payload true [ihdrChunk] 0 0 0 10 0x61 0x62 0x63 0x64 [1, 2, 3]
      (by decide) (by decide) (by decide)⟩

/-- C12.  The signature followed by complete chunks (any type other than IHDR
and tEXt, IHDR of length 13, tEXt of at most 80 bytes holding a NUL) and nothing
else: the constructor returns a document; no chunk of a particular type is
needed, and the signature alone gives the document without text records. -/
theorem c12_complete_chunks_accepted (le : Bool) (cs : List Chunk)
    (hcs : ∀ c ∈ cs, c.Complete) :
    parse le (pngHdr ++ wire cs) = .done (applyAll le cs emptyDoc)
      ∧ parse le pngHdr = .done emptyDoc
      ∧ emptyDoc.textChunks = [] := by
  have h := parse_accepted le cs 0 [] ⟨hcs, by omega, by simp, fun h => absurd rfl h⟩
  rw [wireCut_zero, List.append_nil] at h
  have h2 := parse_accepted le [] 0 [] ⟨by simp, by omega, by simp, fun h => absurd rfl h⟩
  simp only [wireCut, List.append_nil, applyAll] at h2
  exact ⟨h, h2, rfl⟩

/-- C12 at an example: a tEXt chunk and an unknown chunk, no IHDR and no IEND. -/
theorem c12_complete_chunks_accepted_witness :
    (∀ c ∈ [titleChunk, abcdChunk], c.Complete)
      ∧ (parse true (pngHdr ++ wire [titleChunk, abcdChunk])
            = .done (applyAll true [titleChunk, abcdChunk] emptyDoc)
          ∧ parse true pngHdr = .done emptyDoc
          ∧ emptyDoc.textChunks = []) :=
  ⟨by decide, c12_complete_chunks_accepted true [titleChunk, abcdChunk] (by decide)⟩

/-- C13.  On a stream that the constructor reads to its end, with an IHDR chunk
`last` after which no further IHDR chunk comes (any chunks, IHDR chunks too,
before it): `hdr` of the returned document holds the seven fields decoded from
the payload of `last`, whatever earlier IHDR chunks held. -/
theorem c13_last_ihdr_wins (le : Bool) (pre post : List Chunk) (last : Chunk) (cut : Nat)
    (tail : List Byte) (hacc : Accepted (pre ++ ([last] ++ post)) cut tail)
    (hlast : last.tag = tagIHDR) (hpost : ∀ c ∈ post, c.tag ≠ tagIHDR) :
    ∃ doc : PngInfo,
      parse le (pngHdr ++ (wireCut (pre ++ ([last] ++ post)) cut ++ tail)) = .done doc
      ∧ doc.hdr = some
          { width := be32 (last.payload.getD 0 0) (last.payload.getD 1 0)
              (last.payload.getD 2 0) (last.payload.getD 3 0)
            height := be32 (last.payload.getD 4 0) (last.payload.getD 5 0)
              (last.payload.getD 6 0) (last.payload.getD 7 0)
            bitDepth := last.payload.getD 8 0
            colorType := last.payload.getD 9 0
            compression := last.payload.getD 10 0
            filter := last.payload.getD 11 0
            interlace := last.payload.getD 12 0 } := by
  refine ⟨_, parse_accepted le _ cut tail hacc, ?_⟩
  rw [applyAll_hdr_last le pre post last _ hlast hpost, decodeIhdr_fields]

/-- C13 at an example: two IHDR chunks with an unknown chunk between them and a
tEXt chunk after them, the file ending 2 bytes into the last trailing field. -/
theorem c13_last_ihdr_wins_witness :
    Accepted ([ihdrChunk, abcdChunk] ++ ([ihdrChunkB] ++ [tinyTextChunk])) 2 []
      ∧ ihdrChunkB.tag = tagIHDR ∧ (∀ c ∈ [tinyTextChunk], c.tag ≠ tagIHDR)
      ∧ ∃ doc : PngInfo,
        parse true (pngHdr ++ (wireCut ([ihdrChunk, abcdChunk] ++ ([ihdrChunkB]
            ++ [tinyTextChunk])) 2 ++ [])) = .done doc
        ∧ doc.hdr = some
            { width := be32 (ihdrChunkB.payload.getD 0 0) (ihdrChunkB.payload.getD 1 0)
                (ihdrChunkB.payload.getD 2 0) (ihdrChunkB.payload.getD 3 0)
              height := be32 (ihdrChunkB.payload.getD 4 0) (ihdrChunkB.payload.getD 5 0)
                (ihdrChunkB.payload.getD 6 0) (ihdrChunkB.payload.getD 7 0)
              bitDepth := ihdrChunkB.payload.getD 8 0
              colorType := ihdrChunkB.payload.getD 9 0
              compression := ihdrChunkB.payload.getD 10 0
              filter := ihdrChunkB.payload.getD 11 0
              interlace := ihdrChunkB.payload.getD 12 0 } :=
  ⟨by decide, by decide, by decide,
    c13_last_ihdr_wins true [ihdrChunk, abcdChunk] [tinyTextChunk] ihdrChunkB 2 []
      (by decide) (by decide) (by decide)⟩

/-- C14.  On a stream that the constructor reads to its end, the text records
of the returned document are the records of the tEXt chunks of the stream, one
each and in stream order; chunks of other types contribute none. -/
theorem c14_text_records_in_order (le : Bool) (cs : List Chunk) (cut : Nat) (tail : List Byte)
    (hacc : Accepted cs cut tail) :
    ∃ doc : PngInfo,
      parse le (pngHdr ++ (wireCut cs cut ++ tail)) = .done doc
      ∧ doc.textChunks
          = (cs.filter (fun c => decide (c.tag = tagTEXT))).map Chunk.textRecord := by
  refine ⟨_, parse_accepted le cs cut tail hacc, ?_⟩
  rw [applyAll_textChunks]
  simp [emptyDoc]

/-- C14 at an example: tEXt, IHDR, tEXt, unknown, tEXt, then 5 more bytes. -/
theorem c14_text_records_in_order_witness :
    Accepted [titleChunk, ihdrChunk, tinyTextChunk, abcdChunk, nulValueChunk] 0 [0, 0, 0, 0, 0x49]
      ∧ ∃ doc : PngInfo,
        parse false (pngHdr ++ (wireCut
            [titleChunk, ihdrChunk, tinyTextChunk, abcdChunk, nulValueChunk] 0
            ++ [0, 0, 0, 0, 0x49])) = .done doc
        ∧ doc.textChunks
            = ([titleChunk, ihdrChunk, tinyTextChunk, abcdChunk, nulValueChunk].filter
                (fun c => decide (c.tag = tagTEXT))).map Chunk.textRecord :=
  ⟨by decide,
    c14_text_records_in_order false
      [titleChunk, ihdrChunk, tinyTextChunk, abcdChunk, nulValueChunk] 0 [0, 0, 0, 0, 0x49]
      (by decide)⟩

/-- C15.  Two streams of equal length whose complete chunks agree in header and
payload and differ at most in their trailing four bytes, followed by the same
bytes `rest` (or ending inside the last trailing field): the constructor ends
the same way on both, with the same error or the same document. -/
theorem c15_trailer_not_validated (le : Bool) (cs ds : List Chunk) (rest : List Byte)
    (cut : Nat) (hcs : ∀ c ∈ cs, c.Complete)
    (hsame : List.Forall₂ Chunk.SameButTrailer cs ds) (hcut : cut ≤ 4) :
    parse le (pngHdr ++ (wire cs ++ rest)) = parse le (pngHdr ++ (wire ds ++ rest))
      ∧ parse le (pngHdr ++ wireCut cs cut) = parse le (pngHdr ++ wireCut ds cut)
      ∧ (pngHdr ++ (wire cs ++ rest)).length = (pngHdr ++ (wire ds ++ rest)).length := by
  obtain ⟨hds, hlen, happ⟩ := forall₂_sameButTrailer le cs ds hsame hcs
  refine ⟨?_, ?_, ?_⟩
  · rw [parse_wire le cs rest hcs, parse_wire le ds rest hds, happ]
  · have h1 := parse_accepted le cs cut [] ⟨hcs, hcut, by simp, fun _ => rfl⟩
    have h2 := parse_accepted le ds cut [] ⟨hds, hcut, by simp, fun _ => rfl⟩
    rw [List.append_nil] at h1 h2
    rw [h1, h2, happ]
  · simp [hlen]

/-- C15 at an example: the same tEXt chunk with two different trailing fields,
followed by the header of an IHDR chunk of a bad size. -/
theorem c15_trailer_not_validated_witness :
    (∀ c ∈ [tinyTextChunk], c.Complete)
      ∧ List.Forall₂ Chunk.SameButTrailer [tinyTextChunk] [tinyTextChunkB] ∧ 3 ≤ 4
      ∧ (parse true (pngHdr ++ (wire [tinyTextChunk] ++ [0, 0, 0, 12, 0x49, 0x48, 0x44, 0x52]))
            = parse true (pngHdr ++ (wire [tinyTextChunkB]
                ++ [0, 0, 0, 12, 0x49, 0x48, 0x44, 0x52]))
          ∧ parse true (pngHdr ++ wireCut [tinyTextChunk] 3)
            = parse true (pngHdr ++ wireCut [tinyTextChunkB] 3)
          ∧ (pngHdr ++ (wire [tinyTextChunk] ++ [0, 0, 0, 12, 0x49, 0x48, 0x44, 0x52])).length
            = (pngHdr ++ (wire [tinyTextChunkB]
                ++ [0, 0, 0, 12, 0x49, 0x48, 0x44, 0x52])).length) :=
  ⟨by decide, List.Forall₂.cons (by decide) List.Forall₂.nil, by decide,
    c15_trailer_not_validated true [tinyTextChunk] [tinyTextChunkB]
      [0, 0, 0, 12, 0x49, 0x48, 0x44, 0x52] 3 (by decide)
      (List.Forall₂.cons (by decide) List.Forall₂.nil) (by decide)⟩

/-- C16.  Four wire bytes `b0 b1 b2 b3` pass through the load of a `uint32_t`
and `ntohl` as `b0 * 2^24 + b1 * 2^16 + b2 * 2^8 + b3` on either host byte order;
that value is the number of payload bytes the loop skips for a chunk of unknown
type, and the width and height that `loadIHDR` stores; and the big-endian
encoding of a value `x` below `2^32` decodes to `x`. -/
theorem c16_big_endian_u32 (le : Bool) (b0 b1 b2 b3 : Byte) (x : Nat) (hx : x < 2 ^ 32) :
    ntohl le (loadU32 le b0 b1 b2 b3)
        = b0.val * 2 ^ 24 + b1.val * 2 ^ 16 + b2.val * 2 ^ 8 + b3.val
      ∧ (∀ (t0 t1 t2 t3 : Byte) (bytes : List Byte) (png : PngInfo),
          [t0, t1, t2, t3] ≠ tagIHDR → [t0, t1, t2, t3] ≠ tagTEXT →
          (b0.val * 2 ^ 24 + b1.val * 2 ^ 16 + b2.val * 2 ^ 8 + b3.val) + 4 ≤ bytes.length →
          chunkBody le [b0, b1, b2, b3, t0, t1, t2, t3] ⟨bytes, false, false⟩ png
            = .done (⟨bytes.drop
                ((b0.val * 2 ^ 24 + b1.val * 2 ^ 16 + b2.val * 2 ^ 8 + b3.val) + 4),
                false, false⟩, png))
      ∧ (∀ (h0 h1 h2 h3 : Byte) (more : List Byte),
          (decodeIhdr le (b0 :: b1 :: b2 :: b3 :: h0 :: h1 :: h2 :: h3 :: more)).width
              = b0.val * 2 ^ 24 + b1.val * 2 ^ 16 + b2.val * 2 ^ 8 + b3.val
            ∧ (decodeIhdr le (h0 :: h1 :: h2 :: h3 :: b0 :: b1 :: b2 :: b3 :: more)).height
              = b0.val * 2 ^ 24 + b1.val * 2 ^ 16 + b2.val * 2 ^ 8 + b3.val)
      ∧ ntohl le (loadU32 le ((encodeBE32 x).getD 0 0) ((encodeBE32 x).getD 1 0)
          ((encodeBE32 x).getD 2 0) ((encodeBE32 x).getD 3 0)) = x := by
  refine ⟨?_, ?_, ?_, ?_⟩
  · rw [ntohl_loadU32]; rfl
  · intro t0 t1 t2 t3 bytes png h1 h2 hlen
    have hbe : be32 b0 b1 b2 b3 = b0.val * 2 ^ 24 + b1.val * 2 ^ 16 + b2.val * 2 ^ 8 + b3.val :=
      rfl
    rw [← hbe] at hlen ⊢
    have hN : be32 b0 b1 b2 b3 ≤ bytes.length := by omega
    have h4 : 4 ≤ (bytes.drop (be32 b0 b1 b2 b3)).length := by
      rw [List.length_drop]; omega
    have hi1 : IStream.ignore ⟨bytes, false, false⟩ (be32 b0 b1 b2 b3)
        = ⟨bytes.drop (be32 b0 b1 b2 b3), false, false⟩ := by
      simp [IStream.ignore, IStream.good, hN]
    have hi2 : IStream.ignore ⟨bytes.drop (be32 b0 b1 b2 b3), false, false⟩ 4
        = ⟨bytes.drop (be32 b0 b1 b2 b3 + 4), false, false⟩ := by
      have h4b : 4 ≤ bytes.length - be32 b0 b1 b2 b3 := by omega
      simp [IStream.ignore, IStream.good, h4b, List.drop_drop, Nat.add_comm]
    unfold chunkBody
    simp only [List.getD_cons_zero, List.getD_cons_succ, ntohl_loadU32, List.drop_succ_cons,
      List.drop_zero, strncmp_IHDR, strncmp_TEXT, h1, h2, if_false, hi1, IStream.fail]
    simp only [Bool.false_eq_true, if_false, hi2]
  · intro h0 h1 h2 h3 more
    simp [decodeIhdr, ntohl_loadU32, be32]
  · rw [ntohl_loadU32]
    simp only [encodeBE32, List.getD_cons_zero, List.getD_cons_succ, be32]
    omega

/-- C16 at an example: the bytes 00 00 01 00 and the value 0x01020304. -/
theorem c16_big_endian_u32_witness :
    0x01020304 < 2 ^ 32
      ∧ (ntohl true (loadU32 true 0 0 1 0)
          = (0 : Byte).val * 2 ^ 24 + (0 : Byte).val * 2 ^ 16 + (1 : Byte).val * 2 ^ 8
              + (0 : Byte).val
        ∧ (∀ (t0 t1 t2 t3 : Byte) (bytes : List Byte) (png : PngInfo),
            [t0, t1, t2, t3] ≠ tagIHDR → [t0, t1, t2, t3] ≠ tagTEXT →
            ((0 : Byte).val * 2 ^ 24 + (0 : Byte).val * 2 ^ 16 + (1 : Byte).val * 2 ^ 8
                + (0 : Byte).val) + 4 ≤ bytes.length →
            chunkBody true [0, 0, 1, 0, t0, t1, t2, t3] ⟨bytes, false, false⟩ png
              = .done (⟨bytes.drop
                  (((0 : Byte).val * 2 ^ 24 + (0 : Byte).val * 2 ^ 16 + (1 : Byte).val * 2 ^ 8
                    + (0 : Byte).val) + 4),
                  false, false⟩, png))
        ∧ (∀ (h0 h1 h2 h3 : Byte) (more : List Byte),
            (decodeIhdr true (0 :: 0 :: 1 :: 0 :: h0 :: h1 :: h2 :: h3 :: more)).width
                = (0 : Byte).val * 2 ^ 24 + (0 : Byte).val * 2 ^ 16 + (1 : Byte).val * 2 ^ 8
                    + (0 : Byte).val
              ∧ (decodeIhdr true (h0 :: h1 :: h2 :: h3 :: 0 :: 0 :: 1 :: 0 :: more)).height
                = (0 : Byte).val * 2 ^ 24 + (0 : Byte).val * 2 ^ 16 + (1 : Byte).val * 2 ^ 8
                    + (0 : Byte).val)
        ∧ ntohl true (loadU32 true ((encodeBE32 0x01020304).getD 0 0)
            ((encodeBE32 0x01020304).getD 1 0) ((encodeBE32 0x01020304).getD 2 0)
            ((encodeBE32 0x01020304).getD 3 0)) = 0x01020304) :=
  ⟨by decide, c16_big_endian_u32 true 0 0 1 0 0x01020304 (by decide)⟩

/-- C17 (counterexample).  The payload "k", NUL, "a", NUL, "b" has its first NUL
at index 1 and the three bytes "a", NUL, "b" after it; the text stored for it is
"a" alone. -/
theorem c17_value_cut_at_second_nul :
    strlen nulValueChunk.payload = some 1
      ∧ nulValueChunk.payload.drop (1 + 1) = [0x61, 0, 0x62]
      ∧ parse true (pngHdr ++ wire [nulValueChunk])
          = .done { textChunks := [{ keyword := nulValueChunk.payload, text := [0x61] }],
                    hdr := none }
      ∧ ([0x61] : List Byte) ≠ [0x61, 0, 0x62] := by
  decide

/-- C17 (amended).  For a tEXt payload of at most 80 bytes, keyword `kw` without
NUL, then NUL, then the bytes `val` (so the first NUL is at index `kw.length` and
`val` is everything after it): the stored text is `val` up to its first NUL, and
that is all of `val` exactly when `val` holds no NUL; so it is for the document
of a stream with that one chunk. -/
theorem c17_value_up_to_next_nul (le : Bool) (c : Chunk) (kw val : List Byte) (png : PngInfo)
    (htag : c.tag = tagTEXT) (hpay : c.payload = kw ++ 0 :: val)
    (hlen : c.payload.length = c.length) (h0 : (0 : Byte) ∉ kw) (hcap : c.length ≤ 80) :
    strlen c.payload = some kw.length
      ∧ c.payload.drop (kw.length + 1) = val
      ∧ parseTEXT c.payload c.length png
          = .done { png with
              textChunks := png.textChunks ++
                [{ keyword := c.payload, text := val.takeWhile (· ≠ 0) }] }
      ∧ (val.takeWhile (· ≠ 0) = val ↔ (0 : Byte) ∉ val)
      ∧ parse le (pngHdr ++ wire [c])
          = .done { textChunks := [{ keyword := c.payload, text := val.takeWhile (· ≠ 0) }],
                    hdr := none } := by
  have hcap2 : (kw ++ 0 :: val).length ≤ keywordCapacity := by
    rw [← hpay, hlen]; exact hcap
  have hd : (kw ++ 0 :: val).drop (kw.length + 1) = val := by
    rw [List.drop_append_eq_append_drop]
    simp
  have hp := parseTEXT_split kw val png h0 hcap2
  have hp0 := parseTEXT_split kw val emptyDoc h0 hcap2
  have hmem : (0 : Byte) ∈ c.payload := by rw [hpay]; simp
  have hc : c.Complete :=
    ⟨hlen, fun h => absurd (htag.symm.trans h) tagTEXT_ne_tagIHDR, fun _ => ⟨hcap, hmem⟩⟩
  have hpc := parseTEXT_complete c.payload emptyDoc c.payload.length rfl
    (by rw [hlen]; exact hcap) hmem
  refine ⟨by rw [hpay]; exact strlen_split kw val h0, by rw [hpay]; exact hd,
    by rw [← hlen, hpay]; exact hp, takeWhile_ne_zero_eq_self val, ?_⟩
  have hacc := parse_accepted le [c] 0 [] ⟨by simpa using hc, by omega, by simp, fun _ => rfl⟩
  rw [wireCut_zero, List.append_nil] at hacc
  rw [hacc]
  have hrec : c.textRecord = { keyword := c.payload, text := val.takeWhile (· ≠ 0) } := by
    rw [hpay] at hpc
    rw [hpc] at hp0
    simp only [Outcome.done.injEq, PngInfo.mk.injEq, emptyDoc, List.nil_append,
      List.cons.injEq, and_true] at hp0
    rw [Chunk.textRecord, hpay]
    exact hp0
  have happ : applyAll le [c] emptyDoc = { textChunks := [c.textRecord], hdr := none } := by
    simp [applyAll, Chunk.apply, htag, tagTEXT_ne_tagIHDR, emptyDoc, Chunk.textRecord]
  rw [happ, hrec]

/-- C17 (amended) at the payload of the counterexample. -/
theorem c17_value_up_to_next_nul_witness :
    nulValueChunk.tag = tagTEXT ∧ nulValueChunk.payload = [0x6B] ++ 0 :: [0x61, 0, 0x62]
      ∧ nulValueChunk.payload.length = nulValueChunk.length ∧ (0 : Byte) ∉ ([0x6B] : List Byte)
      ∧ nulValueChunk.length ≤ 80
      ∧ (strlen nulValueChunk.payload = some ([0x6B] : List Byte).length
        ∧ nulValueChunk.payload.drop (([0x6B] : List Byte).length + 1) = [0x61, 0, 0x62]
        ∧ parseTEXT nulValueChunk.payload nulValueChunk.length emptyDoc
            = .done { emptyDoc with
                textChunks := emptyDoc.textChunks ++
                  [{ keyword := nulValueChunk.payload,
                     text := ([0x61, 0, 0x62] : List Byte).takeWhile (· ≠ 0) }] }
        ∧ (([0x61, 0, 0x62] : List Byte).takeWhile (· ≠ 0) = [0x61, 0, 0x62]
            ↔ (0 : Byte) ∉ ([0x61, 0, 0x62] : List Byte))
        ∧ parse true (pngHdr ++ wire [nulValueChunk])
            = .done { textChunks := [{ keyword := nulValueChunk.payload,
                                        text := ([0x61, 0, 0x62] : List Byte).takeWhile (· ≠ 0) }],
                      hdr := none }) :=
  ⟨by decide, by decide, by decide, by decide, by decide,
    c17_value_up_to_next_nul true nulValueChunk [0x6B] [0x61, 0, 0x62] emptyDoc
      (by decide) (by decide) (by decide) (by decide) (by decide)⟩

/-- C18.  For a tEXt chunk whose payload of `L` bytes is wholly present and holds
a NUL, at whatever index: `parseTEXT` leaves `keyword[80]` exactly when `L > 80`;
when `L ≤ 80` the keyword field receives all `L` payload bytes, not only the
keyword; and the constructor on the stream with that one chunk ends in the
overrun exactly when `L > 80`. -/
theorem c18_whole_payload_into_keyword (le : Bool) (c : Chunk) (png : PngInfo)
    (htag : c.tag = tagTEXT) (hlen : c.payload.length = c.length)
    (h0 : (0 : Byte) ∈ c.payload) :
    (parseTEXT c.payload c.length png = .undefined .keywordOverflow ↔ 80 < c.length)
      ∧ (c.length ≤ 80 → ∃ text : List Byte,
          parseTEXT c.payload c.length png
            = .done { png with
                textChunks := png.textChunks ++ [{ keyword := c.payload, text := text }] })
      ∧ (parse le (pngHdr ++ c.bytes) = .undefined .keywordOverflow ↔ 80 < c.length) := by
  refine ⟨?_, ?_, ?_⟩
  · rw [← hlen]; exact parseTEXT_overflow_iff c.payload png h0
  · intro hcap
    have hcap2 : c.payload.length ≤ keywordCapacity := by rw [hlen]; exact hcap
    have hp := parseTEXT_complete c.payload png c.payload.length rfl hcap2 h0
    rw [hlen] at hp
    exact ⟨_, hp⟩
  · constructor
    · intro h
      by_contra hn
      have hc : c.Complete :=
        ⟨hlen, fun h => absurd (htag.symm.trans h) tagTEXT_ne_tagIHDR,
          fun _ => ⟨by unfold keywordCapacity; omega, h0⟩⟩
      have hacc := parse_accepted le [c] 0 [] ⟨by simpa using hc, by omega, by simp, fun _ => rfl⟩
      rw [wireCut_zero, List.append_nil] at hacc
      have hw : wire [c] = c.bytes := by simp [wire]
      rw [hw, h] at hacc
      exact Outcome.noConfusion hacc
    · intro h
      exact parse_text_overflow le c htag hlen h0 h

/-- C18 at an example: 81 payload bytes with the NUL at index 1. -/
theorem c18_whole_payload_into_keyword_witness :
    longValueChunk.tag = tagTEXT ∧ longValueChunk.payload.length = longValueChunk.length
      ∧ (0 : Byte) ∈ longValueChunk.payload
      ∧ ((parseTEXT longValueChunk.payload longValueChunk.length emptyDoc
            = .undefined .keywordOverflow ↔ 80 < longValueChunk.length)
        ∧ (longValueChunk.length ≤ 80 → ∃ text : List Byte,
            parseTEXT longValueChunk.payload longValueChunk.length emptyDoc
              = .done { emptyDoc with
                  textChunks := emptyDoc.textChunks
                    ++ [{ keyword := longValueChunk.payload, text := text }] })
        ∧ (parse true (pngHdr ++ longValueChunk.bytes) = .undefined .keywordOverflow
            ↔ 80 < longValueChunk.length)) :=
  ⟨by decide, by decide, by decide,
    c18_whole_payload_into_keyword true longValueChunk emptyDoc (by decide) (by decide)
      (by decide)⟩

/-- C19 (the code at a failing input).  For the payload "k", NUL and 79 bytes
"a" (81 bytes, first NUL at index 1) `strndup` returns the 79 bytes after the
separator, `81 - 1 - 1 = 79` without wrapping, but `parseTEXT` does not store
them in a record: the `memcpy` that follows leaves `keyword[80]`. -/
theorem c19_long_payload_text_not_stored :
    longValueChunk.payload.length = 81
      ∧ strlen longValueChunk.payload = some 1
      ∧ subSize (subSize 81 1) 1 = 79
      ∧ strndup (longValueChunk.payload.drop (1 + 1)) (subSize (subSize 81 1) 1)
          = List.replicate 79 0x61
      ∧ parseTEXT longValueChunk.payload 81 emptyDoc = .undefined .keywordOverflow
      ∧ parse true (pngHdr ++ wire [longValueChunk]) = .undefined .keywordOverflow
      ∧ parse false (pngHdr ++ wire [longValueChunk]) = .undefined .keywordOverflow := by
  decide

/-- C20 (the code at a failing input).  The loop always ends (the fuel the model
gives it is never used up) and every iteration that runs to the end of the body
takes at least the 8 header bytes, so there are at most `(length - 8) / 8` of
them.  On the 16-byte input made of the signature and the header of a chunk of
type "abcd" that declares no payload, the one iteration ends without error 8
bytes further on, not 12 (`ignore(4)` at the end of the file sets only `eofbit`),
while `(16 - 8) / 12 = 0`; likewise for the 19 bytes of the signature and a tEXt
chunk "k", NUL, "v" without trailing field. -/
theorem c20_iteration_bound_broken :
    (∀ (le : Bool) (input : List Byte), parse le input ≠ .outOfFuel)
      ∧ (∀ (le : Bool) (input : List Byte),
          8 * chunkIterations le input.length ⟨input.drop 8, false, false⟩ emptyDoc
            ≤ input.length - 8)
      ∧ (pngHdr ++ wireCut [emptyAbcdChunk] 4).length = 16
      ∧ parse true (pngHdr ++ wireCut [emptyAbcdChunk] 4) = .done emptyDoc
      ∧ chunkBody true emptyAbcdChunk.header ⟨[], false, false⟩ emptyDoc
          = .done (⟨[], true, false⟩, emptyDoc)
      ∧ chunkIterations true 16 ⟨wireCut [emptyAbcdChunk] 4, false, false⟩ emptyDoc = 1
      ∧ (16 - 8) / 12 = 0
      ∧ (pngHdr ++ wireCut [tinyTextChunk] 4).length = 19
      ∧ parse true (pngHdr ++ wireCut [tinyTextChunk] 4)
          = .done { textChunks := [{ keyword := [0x6B, 0, 0x76], text := [0x76] }], hdr := none }
      ∧ chunkIterations true 19 ⟨wireCut [tinyTextChunk] 4, false, false⟩ emptyDoc = 1
      ∧ (19 - 8) / 12 = 0 := by
  refine ⟨parse_ne_outOfFuel, ?_, by decide, by decide, by decide, by decide, by decide,
    by decide, by decide, by decide, by decide⟩
  intro le input
  have h := chunkIterations_le le input.length ⟨input.drop 8, false, false⟩ emptyDoc
  simpa using h

end Pnginfo
